import Mathlib

/-!
# Verification of the scale2 codec core (qjs-extensions/src/scale2)

This development shallowly embeds the type-definition language model, the
type registry with alias/generic resolution, and the recursive value
encoder/decoder of `qjs-extensions/src/scale2/mod.rs` (with the data model
of `scale2/parser.rs`), and proves the specification's claims about them.

Machine integers are modelled as `Nat`/`Int`; byte strings as `List Nat`
(each element the value of one byte).  Fallible operations return
`Except String`; operations whose Rust original can fail to terminate
(alias chasing, type-directed recursion) additionally take a fuel
parameter and return `Option (Except String _)`, where `none` means the
fuel bound was reached (the Rust code would still be running).
-/

namespace Scale2

/-! ## Little-endian fixed-width byte codec

Models the `to_le_bytes`/`from_le_bytes` integer layout used by
`parity_scale_codec::Encode`/`Decode` for fixed-width integers. -/

/-- `w` little-endian bytes of `n` (the low `8*w` bits of `n`). -/
def leEnc : Nat → Nat → List Nat
  | 0, _ => []
  | w + 1, n => n % 256 :: leEnc w (n / 256)

/-- Read `w` little-endian bytes from the front of a buffer, returning the
value and the unconsumed tail; `none` when fewer than `w` bytes remain. -/
def leDec : Nat → List Nat → Option (Nat × List Nat)
  | 0, buf => some (0, buf)
  | _ + 1, [] => none
  | w + 1, b :: rest =>
    match leDec w rest with
    | none => none
    | some (n, r) => some (b + 256 * n, r)

/-! ## SCALE compact integer codec

Models `parity_scale_codec::Compact<uN>` encode/decode (the external wire
format the scale2 code delegates to).  The encoder picks the minimal mode
(single byte, two bytes, four bytes, or big-integer mode); the decoder
enforces the canonical minimal form and the target width `w` in bits,
returning `none` on underrun or non-canonical input — the scale2 code maps
every such failure to the single error "Unexpected end of buffer". -/

/-- Minimal number of bytes needed to represent `n` (at least 1). -/
def byteLen (n : Nat) : Nat := Nat.log 256 n + 1

/-- SCALE compact encoding of `n` (minimal mode). -/
def compactEnc (n : Nat) : List Nat :=
  if n < 2 ^ 6 then [n * 4]
  else if n < 2 ^ 14 then leEnc 2 (n * 4 + 1)
  else if n < 2 ^ 30 then leEnc 4 (n * 4 + 2)
  else ((byteLen n - 4) * 4 + 3) :: leEnc (byteLen n) n

/-- SCALE compact decoding for a target of `w` bits, returning the value and
the unconsumed tail.  Mirrors the mode dispatch and the canonical-form
checks of `parity-scale-codec`'s `Decode for Compact<uN>`. -/
def compactDec (w : Nat) (buf : List Nat) : Option (Nat × List Nat) :=
  match buf with
  | [] => none
  | b :: rest =>
    if b % 4 = 0 then some (b / 4, rest)
    else if b % 4 = 1 then
      match leDec 2 (b :: rest) with
      | none => none
      | some (x, r) =>
        let v := x / 4
        if 63 < v ∧ v < 2 ^ w then some (v, r) else none
    else if b % 4 = 2 then
      if w ≤ 8 then none
      else
        match leDec 4 (b :: rest) with
        | none => none
        | some (x, r) =>
          let v := x / 4
          if 2 ^ 14 - 1 < v ∧ v < 2 ^ w then some (v, r) else none
    else
      if w ≤ 16 then none
      else
        let len := b / 4 + 4
        if w / 8 < len then none
        else
          match leDec len rest with
          | none => none
          | some (x, r) =>
            let lo := if len = 4 then 2 ^ 30 else 2 ^ (8 * (len - 1))
            if lo ≤ x then some (x, r) else none

/-! ## Two's-complement signed integers -/

/-- The `w`-byte two's-complement little-endian encoding of `i`
(Rust `iN::to_le_bytes`). -/
def twosEnc (w : Nat) (i : Int) : List Nat :=
  leEnc w (i % (2 ^ (8 * w) : Nat)).toNat

/-- Reinterpret a `w`-byte unsigned value as a two's-complement signed one
(Rust `iN::from_le_bytes`). -/
def twosVal (w n : Nat) : Int :=
  if n < 2 ^ (8 * w - 1) then (n : Int) else (n : Int) - (2 ^ (8 * w) : Nat)

/-! ## Type model (scale2/parser.rs data model)

`PrimitiveType`, `Type` (here `Ty`), and `Enum` follow
`qjs-extensions/src/scale2/parser.rs`.  The `Id`/`IdInfo` split with
`type_args` and the `TypeDef` name with `type_params` are the data model
`mod.rs` imports and uses (`tid.info`, `tid.type_args`, `def.name.name`,
`def.name.type_params`); the version of `parser.rs` included in the source
tree predates them, so their shape is modelled from the spec (§3 "Data
model": `Name(string)` plus a list of type-argument ids, `Num(index)`,
`Type(boxed inline Type)`; `TypeDef` with optional name and type-parameter
name list). -/

inductive PrimitiveType where
  | u8 | u16 | u32 | u64 | u128
  | i8 | i16 | i32 | i64 | i128
  | bool | str
  deriving DecidableEq, Repr

mutual
inductive IdInfo where
  | name (s : String)
  | num (n : Nat)
  | type (t : Ty)
  deriving Repr

inductive Id where
  | mk (info : IdInfo) (type_args : List Id)
  deriving Repr

inductive Ty where
  | primitive (p : PrimitiveType)
  | compact (id : Id)
  | seq (id : Id)
  | tuple (ids : List Id)
  | array (id : Id) (len : Nat)
  | enum (variants : List (String × Option Id × Option Nat))
  | struct (fields : List (String × Id))
  | alias (id : Id)
  deriving Repr
end

/-- `Id.info` field accessor. -/
def Id.info : Id → IdInfo
  | .mk i _ => i

/-- `Id.type_args` field accessor. -/
def Id.type_args : Id → List Id
  | .mk _ a => a

/-- `Id::from(&str)` / `Id::from(String)`: a bare name with no type
arguments. -/
def Id.ofName (s : String) : Id := .mk (.name s) []

/-- `Id::from(u32)`: a positional reference. -/
def Id.ofNum (n : Nat) : Id := .mk (.num n) []

/-- `Type::is_alias`. -/
def Ty.is_alias : Ty → Bool
  | .alias _ => true
  | _ => false

/-- The `matches!(ty, Type::Primitive(PrimitiveType::U8))` test used by the
byte fast paths. -/
def Ty.isU8 : Ty → Bool
  | .primitive .u8 => true
  | _ => false

/-- `Type::primitive(&str)`: the builtin primitive-name table
(`impl_primitive_types!` in parser.rs). -/
def Ty.primitive? (s : String) : Option Ty :=
  if s = "u8" then some (.primitive .u8)
  else if s = "u16" then some (.primitive .u16)
  else if s = "u32" then some (.primitive .u32)
  else if s = "u64" then some (.primitive .u64)
  else if s = "u128" then some (.primitive .u128)
  else if s = "i8" then some (.primitive .i8)
  else if s = "i16" then some (.primitive .i16)
  else if s = "i32" then some (.primitive .i32)
  else if s = "i64" then some (.primitive .i64)
  else if s = "i128" then some (.primitive .i128)
  else if s = "bool" then some (.primitive .bool)
  else if s = "str" then some (.primitive .str)
  else none

/-- The `DefName` carried by a `TypeDef`: optional name plus the generic
type-parameter name list (modelled from the spec's `TypeDef` description;
`mod.rs` reads `def.name.name` and `def.name.type_params`). -/
structure DefName where
  name : Option String
  type_params : List String
  deriving Repr

/-- A parsed type definition. -/
structure TypeDef where
  name : DefName
  ty : Ty
  deriving Repr

/-- Rendering of a `DefName` for error messages (the Rust `Display` is not
in the source tree; only the bare name is needed by the claims). -/
def DefName.display (d : DefName) : String := d.name.getD ""

/-! ## Registry -/

/-- `Registry`: ordered list of type definitions plus a name-to-index map.
The `BTreeMap` is modelled as an association list where the most recent
insertion is found first (insert-overwrites semantics). -/
structure Registry where
  types : List TypeDef
  lookup : List (String × Nat)
  deriving Repr

/-- The empty registry (`Registry::default()`). -/
def Registry.empty : Registry := ⟨[], []⟩

/-- Find a name in the modelled `BTreeMap`. -/
def mapFind (m : List (String × Nat)) (k : String) : Option Nat :=
  match m with
  | [] => none
  | (k', v) :: rest => if k' = k then some v else mapFind rest k

/-- `Registry::append`: push definitions in order, recording (and
overwriting) the name-to-index mapping of each named definition. -/
def Registry.append (r : Registry) (defs : List TypeDef) : Registry :=
  match defs with
  | [] => r
  | d :: rest =>
    let r' : Registry :=
      { types := r.types ++ [d]
        lookup :=
          match d.name.name with
          | some n => (n, r.types.length) :: r.lookup
          | none => r.lookup }
    r'.append rest

/-! ## Generic substitution (`GenericLookup`)

`GenericLookup::new` zips parameter names with argument ids into a
`BTreeMap` (later duplicates overwrite earlier ones); `resolve_tid` and
`resolve_type` rewrite parameter occurrences into the bound argument ids.
These functions are used by `mod.rs` (`Registry::resolve_generic`). -/

/-- The parameter-name binding map; duplicate parameter names resolve to the
later binding, as for `BTreeMap::collect`. -/
def glGet (params : List String) (args : List Id) (s : String) : Option Id :=
  match params, args with
  | p :: ps, a :: as_ =>
    match glGet ps as_ s with
    | some r => some r
    | none => if p = s then some a else none
  | _, _ => none

mutual
/-- `GenericLookup::resolve_tid`. -/
def glResolveTid (params : List String) (args : List Id) : Id → Except String Id
  | .mk (.name s) targs =>
    match glGet params args s with
    | some id =>
      if targs.isEmpty then .ok id
      else .error ("Generic type " ++ s ++ " can not have type arguments")
    | none =>
      match glResolveTidList params args targs with
      | .ok targs' => .ok (.mk (.name s) targs')
      | .error e => .error e
  | .mk (.num n) targs => .ok (.mk (.num n) targs)
  | .mk (.type t) _ =>
    match glResolveTy params args t with
    | .ok t' => .ok (.mk (.type t') [])
    | .error e => .error e

/-- `GenericLookup::resolve_type`. -/
def glResolveTy (params : List String) (args : List Id) : Ty → Except String Ty
  | .primitive p => .ok (.primitive p)
  | .compact id => .ok (.compact id)
  | .seq id =>
    match glResolveTid params args id with
    | .ok id' => .ok (.seq id')
    | .error e => .error e
  | .tuple ids =>
    match glResolveTidList params args ids with
    | .ok ids' => .ok (.tuple ids')
    | .error e => .error e
  | .array id len =>
    match glResolveTid params args id with
    | .ok id' => .ok (.array id' len)
    | .error e => .error e
  | .enum vs =>
    match glResolveVariants params args vs with
    | .ok vs' => .ok (.enum vs')
    | .error e => .error e
  | .struct fs =>
    match glResolveFields params args fs with
    | .ok fs' => .ok (.struct fs')
    | .error e => .error e
  | .alias id =>
    match glResolveTid params args id with
    | .ok id' => .ok (.alias id')
    | .error e => .error e

/-- Elementwise `resolve_tid` over a list of ids. -/
def glResolveTidList (params : List String) (args : List Id) :
    List Id → Except String (List Id)
  | [] => .ok []
  | id :: rest =>
    match glResolveTid params args id with
    | .ok id' =>
      match glResolveTidList params args rest with
      | .ok rest' => .ok (id' :: rest')
      | .error e => .error e
    | .error e => .error e

/-- Elementwise `resolve_tid` over enum variants (payload ids only). -/
def glResolveVariants (params : List String) (args : List Id) :
    List (String × Option Id × Option Nat) →
    Except String (List (String × Option Id × Option Nat))
  | [] => .ok []
  | (n, none, ind) :: rest =>
    match glResolveVariants params args rest with
    | .ok rest' => .ok ((n, none, ind) :: rest')
    | .error e => .error e
  | (n, some id, ind) :: rest =>
    match glResolveTid params args id with
    | .ok id' =>
      match glResolveVariants params args rest with
      | .ok rest' => .ok ((n, some id', ind) :: rest')
      | .error e => .error e
    | .error e => .error e

/-- Elementwise `resolve_tid` over struct fields. -/
def glResolveFields (params : List String) (args : List Id) :
    List (String × Id) → Except String (List (String × Id))
  | [] => .ok []
  | (n, id) :: rest =>
    match glResolveTid params args id with
    | .ok id' =>
      match glResolveFields params args rest with
      | .ok rest' => .ok ((n, id') :: rest')
      | .error e => .error e
    | .error e => .error e
end

/-! ## Type-definition language lexer and grammar

The token set, comment/whitespace handling, and grammar productions follow
`scale2/parser.rs` (`lexer`, `type_parser`, `parser`).  The combinator
engine itself (chumsky) is external; per the spec, lexical and parse
mismatches are collected and reported together rather than failing fast
("Modelled from the spec:" parse failure "aggregates all individual
token/parse mismatches encountered"), which this model implements by
continuing the scan after a lexical error and by resynchronising at the
next `;` after a statement-level parse error. -/

/-- One token of the type-definition language. -/
inductive Token where
  | num (n : Nat)
  | op (c : Char)
  | ident (s : String)
  deriving DecidableEq, Repr

/-- The left-brace character (written via its code point to keep string
literals brace-free). -/
def lbrace : Char := Char.ofNat 123

/-- The right-brace character. -/
def rbrace : Char := Char.ofNat 125

/-- The operator-character set of the lexer. -/
def isOpChar (c : Char) : Bool :=
  c = '|' || c = '=' || c = '@' || c = ':' || c = ';' || c = ',' || c = '#' ||
  c = '(' || c = ')' || c = '[' || c = ']' || c = lbrace || c = rbrace ||
  c = '<' || c = '>'

/-- Identifier continuation characters (`text::ident()`). -/
def isIdentChar (c : Char) : Bool := c.isAlphanum || c = '_'

/-- Decimal value of a digit run. -/
def digitsVal (ds : List Char) : Nat :=
  ds.foldl (fun a c => a * 10 + (c.toNat - 48)) 0

/-- The scanner loop: produces the token list and the list of lexical
errors encountered (scanning continues past an error to collect them
all). -/
def lexLoop : Nat → List Char → List Token × List String
  | 0, _ => ([], [])
  | _ + 1, [] => ([], [])
  | fuel + 1, c :: cs =>
    if c = '/' ∧ cs.head? = some '/' then
      lexLoop fuel (cs.dropWhile (fun ch => ch ≠ '\n'))
    else if c.isWhitespace then lexLoop fuel cs
    else if isOpChar c then
      let (ts, es) := lexLoop fuel cs
      (Token.op c :: ts, es)
    else if c.isDigit then
      let ds := (c :: cs).takeWhile Char.isDigit
      let rest := (c :: cs).dropWhile Char.isDigit
      let (ts, es) := lexLoop fuel rest
      if digitsVal ds < 2 ^ 32 then (Token.num (digitsVal ds) :: ts, es)
      else (ts, ("Number literal out of range: " ++ String.mk ds) :: es)
    else if c.isAlpha ∨ c = '_' then
      let ds := (c :: cs).takeWhile isIdentChar
      let rest := (c :: cs).dropWhile isIdentChar
      let (ts, es) := lexLoop fuel rest
      (Token.ident (String.mk ds) :: ts, es)
    else
      let (ts, es) := lexLoop fuel cs
      (ts, ("Invalid character " ++ String.mk [c]) :: es)

/-- Tokenize a source string. -/
def lex (s : String) : List Token × List String :=
  lexLoop (s.toList.length + 1) s.toList

mutual
/-- The `type` production (`type_parser` in parser.rs): choice of
primitive (`#kw`), alias (bare id), compact (`@`), seq/array (`[`),
tuple (`(`), enum (`<`), struct, each keyed by its leading token. -/
def parseTy : Nat → List Token → Except String (Ty × List Token)
  | 0, _ => .error "type nesting too deep"
  | fuel + 1, toks =>
    match toks with
    | .op '#' :: .ident s :: rest =>
      match Ty.primitive? s with
      | some p => .ok (p, rest)
      | none => .error ("Unknown primitive type " ++ s)
    | .op '#' :: _ => .error "Expected a primitive type name"
    | .ident s :: rest => .ok (.alias (Id.ofName s), rest)
    | .num n :: rest => .ok (.alias (Id.ofNum n), rest)
    | .op '@' :: rest =>
      match parseTid fuel rest with
      | .ok (id, rest') => .ok (.compact id, rest')
      | .error e => .error e
    | .op '[' :: rest =>
      match parseTid fuel rest with
      | .ok (id, rest') =>
        match rest' with
        | .op ';' :: .num len :: .op ']' :: rest2 => .ok (.array id len, rest2)
        | .op ']' :: rest2 => .ok (.seq id, rest2)
        | _ => .error "Expected ] or ; in sequence/array type"
      | .error e => .error e
    | .op '(' :: rest => parseTupleItems fuel rest []
    | .op '<' :: rest => parseVariants fuel rest []
    | .op c :: rest =>
      if c = lbrace then parseStructFields fuel rest []
      else .error "Expected a type"
    | _ => .error "Expected a type"

/-- The `typ` production: a bare identifier or number reference, else a
nested inline type (`tid.or(typedef.map(Id::Type))`). -/
def parseTid : Nat → List Token → Except String (Id × List Token)
  | 0, _ => .error "type nesting too deep"
  | fuel + 1, toks =>
    match toks with
    | .ident s :: rest => .ok (Id.ofName s, rest)
    | .num n :: rest => .ok (Id.ofNum n, rest)
    | _ =>
      match parseTy fuel toks with
      | .ok (t, rest) => .ok (.mk (.type t) [], rest)
      | .error e => .error e

/-- Comma-separated type ids with optional trailing comma, closed by
`)`. -/
def parseTupleItems : Nat → List Token → List Id → Except String (Ty × List Token)
  | 0, _, _ => .error "type nesting too deep"
  | fuel + 1, toks, acc =>
    match toks with
    | .op ')' :: rest => .ok (.tuple acc.reverse, rest)
    | _ =>
      match parseTid fuel toks with
      | .ok (id, rest) =>
        match rest with
        | .op ',' :: rest' => parseTupleItems fuel rest' (id :: acc)
        | .op ')' :: rest' => .ok (.tuple (id :: acc).reverse, rest')
        | _ => .error "Expected , or ) in tuple type"
      | .error e => .error e

/-- Enum variants `ident [':' [typ]] [':' num]`, separated by `,` or `|`
with optional trailing separator, closed by `>`. -/
def parseVariants : Nat → List Token →
    List (String × Option Id × Option Nat) → Except String (Ty × List Token)
  | 0, _, _ => .error "type nesting too deep"
  | fuel + 1, toks, acc =>
    match toks with
    | .op '>' :: rest => .ok (.enum acc.reverse, rest)
    | .ident name :: rest =>
      let payloadStep : Option Id × List Token :=
        match rest with
        | .op ':' :: rest1 =>
          match parseTid fuel rest1 with
          | .ok (id, rest2) => (some id, rest2)
          | .error _ => (none, rest1)
        | _ => (none, rest)
      match payloadStep with
      | (payload, rest1) =>
        let explicitStep : Option Nat × List Token :=
          match rest1 with
          | .op ':' :: .num n :: rest2 => (some n, rest2)
          | _ => (none, rest1)
        match explicitStep with
        | (explic, rest2) =>
          match rest2 with
          | .op ',' :: rest3 => parseVariants fuel rest3 ((name, payload, explic) :: acc)
          | .op '|' :: rest3 => parseVariants fuel rest3 ((name, payload, explic) :: acc)
          | .op '>' :: rest3 => .ok (.enum ((name, payload, explic) :: acc).reverse, rest3)
          | _ => .error "Expected , | or > in enum type"
    | _ => .error "Expected a variant name"

/-- Struct fields `ident ':' typ`, comma separated with optional trailing
comma, closed by the right brace. -/
def parseStructFields : Nat → List Token →
    List (String × Id) → Except String (Ty × List Token)
  | 0, _, _ => .error "type nesting too deep"
  | fuel + 1, toks, acc =>
    match toks with
    | .op c :: rest =>
      if c = rbrace then .ok (.struct acc.reverse, rest)
      else .error "Expected a field name"
    | .ident name :: .op ':' :: rest =>
      match parseTid fuel rest with
      | .ok (id, rest1) =>
        match rest1 with
        | .op ',' :: rest2 => parseStructFields fuel rest2 ((name, id) :: acc)
        | .op c :: rest2 =>
          if c = rbrace then .ok (.struct ((name, id) :: acc).reverse, rest2)
          else .error "Expected , or closing brace in struct type"
        | _ => .error "Expected , or closing brace in struct type"
      | .error e => .error e
    | _ => .error "Expected a field name"
end

/-- One `typedef := [identifier '='] type` statement. -/
def parseStmt (fuel : Nat) (toks : List Token) :
    Except String (TypeDef × List Token) :=
  match toks with
  | .ident s :: .op '=' :: rest =>
    match parseTy fuel rest with
    | .ok (t, rest') => .ok (⟨⟨some s, []⟩, t⟩, rest')
    | .error e => .error e
  | _ =>
    match parseTy fuel toks with
    | .ok (t, rest') => .ok (⟨⟨none, []⟩, t⟩, rest')
    | .error e => .error e

/-- Skip to just past the next `;` (error resynchronisation point). -/
def skipToSemi : List Token → List Token
  | [] => []
  | .op ';' :: rest => rest
  | _ :: rest => skipToSemi rest

/-- Statement list with optional `;` separators and
collect-all-errors recovery. -/
def parseStmtList : Nat → List Token → List String → List TypeDef →
    List String × List TypeDef
  | 0, _, errs, acc => (errs ++ ["statement list too long"], acc.reverse)
  | _ + 1, [], errs, acc => (errs, acc.reverse)
  | fuel + 1, toks, errs, acc =>
    match parseStmt fuel toks with
    | .ok (td, rest) =>
      match rest with
      | .op ';' :: rest' => parseStmtList fuel rest' errs (td :: acc)
      | _ => parseStmtList fuel rest errs (td :: acc)
    | .error e => parseStmtList fuel (skipToSemi toks) (errs ++ [e]) acc

/-- `to_js_error`: aggregate a list of errors into one message, one per
line (mod.rs). -/
def toJsError (errs : List String) : String :=
  errs.foldl (fun acc e => acc ++ e ++ "\n") ""

/-- `parser::parse_types`: lex (collecting all lexical errors), then parse
the statement list (collecting all statement-level mismatches). -/
def parseTypes (src : String) : Except (List String) (List TypeDef) :=
  let (toks, lexErrs) := lex src
  if lexErrs.isEmpty then
    match parseStmtList (3 * toks.length + 9) toks [] [] with
    | ([], defs) => .ok defs
    | (e :: es, _) => .error (e :: es)
  else .error lexErrs

/-- `parser::parse_type` (not present in the in-tree parser.rs; modelled
from the spec: re-parse a name text as one inline type expression). -/
def parseType (lit : String) : Except String Ty :=
  let (toks, lexErrs) := lex lit
  if lexErrs.isEmpty then
    match parseTy (3 * toks.length + 9) toks with
    | .ok (t, []) => .ok t
    | .ok (_, _ :: _) => .error ("Unexpected trailing tokens in type " ++ lit)
    | .error e => .error e
  else .error (toJsError lexErrs)

/-! ## Registry resolution (mod.rs `impl Registry`) -/

/-- `Registry::resolve_generic`: exact parameter-count check, fast path for
non-generic definitions, else substitution. -/
def Registry.resolve_generic (_r : Registry) (tid : Id) (d : TypeDef) :
    Except String Ty :=
  if d.name.type_params.length ≠ tid.type_args.length then
    .error ("Type " ++ d.name.display ++ " expected "
      ++ toString d.name.type_params.length ++ " type parameters, got "
      ++ toString tid.type_args.length)
  else if tid.type_args.isEmpty then .ok d.ty
  else glResolveTy d.name.type_params tid.type_args d.ty

/-- `Registry::get_type_shallow`: name lookup (falling back to the builtin
primitive table), positional lookup, or embedded type; then generic
resolution for definition references. -/
def Registry.get_type_shallow (r : Registry) (tid : Id) : Except String Ty :=
  match tid.info with
  | .name s =>
    match mapFind r.lookup s with
    | some ind =>
      match r.types[ind]? with
      | some d => r.resolve_generic tid d
      | none => .error ("Unknown type " ++ toString ind)
    | none =>
      match Ty.primitive? s with
      | some p => .ok p
      | none => .error ("Unknown type " ++ s)
  | .num ind =>
    match r.types[ind]? with
    | some d => r.resolve_generic tid d
    | none => .error ("Unknown type " ++ toString ind)
  | .type t => .ok t

/-- `Registry::get_type`: shallow resolution followed by the alias-chasing
`while let` loop.  The Rust loop has no bound; `fuel` bounds the number of
loop iterations in the model, and `none` means the original is still
looping after `fuel` steps. -/
def Registry.get_type_fuel : Nat → Registry → Id → Option (Except String Ty)
  | 0, _, _ => none
  | fuel + 1, r, tid =>
    match r.get_type_shallow tid with
    | .error e => some (.error e)
    | .ok (.alias id) => Registry.get_type_fuel fuel r id
    | .ok t => some (.ok t)

/-- `Registry::resolve_type`: `get_type`, then (when `fallback` is set and
the id is a name) re-parse the name text as an inline type expression; an
alias so produced is resolved one further level with fallback disabled
(`resolve_type(&id, false)` returns its `get_type(&id)` result unchanged,
which is inlined here). -/
def Registry.resolve_type_fuel (fuel : Nat) (r : Registry) (tid : Id)
    (fallback : Bool) : Option (Except String Ty) :=
  match Registry.get_type_fuel fuel r tid with
  | some (.error e) =>
    if fallback then
      match tid.info with
      | .name lit =>
        match parseType lit with
        | .ok (.alias id) => Registry.get_type_fuel fuel r id
        | .ok t => some (.ok t)
        | .error pe => some (.error pe)
      | _ => some (.error e)
    else some (.error e)
  | other => other

/-! ## Dynamic values (the capability interface of spec §6)

Modelled from the spec: the dynamic value representation is external to the
codec core (qjsbind's `Value` is not part of the scale2 sources), so values
are modelled as the closed universe below, with the capabilities §6 lists:
integer/boolean/string coercions (strict, with range checks), byte-buffer
or hex-string reads, named-property/entry reads, positional index and
length, and aggregate construction.  A JS string is represented by its
UTF-8 byte content (`List Nat`), which makes the string codec's UTF-8
(de)serialisation the identity on contents; UTF-8 re-validation on decode
is elided. -/

inductive JsValue where
  | null
  | undefined
  | bool (b : Bool)
  | num (n : Int)
  | str (s : List Nat)
  | bytes (b : List Nat)
  | arr (xs : List JsValue)
  | obj (fields : List (String × JsValue))
  deriving Repr

/-- `value.get_property(name)`: named property read (JS-style `undefined`
for a missing property; `length` is materialised on aggregates). -/
def getProp : JsValue → String → JsValue
  | .obj fields, k =>
    match fields.find? (fun f => f.1 = k) with
    | some f => f.2
    | none => .undefined
  | .arr xs, k => if k = "length" then .num xs.length else .undefined
  | .bytes b, k => if k = "length" then .num b.length else .undefined
  | .str s, k => if k = "length" then .num s.length else .undefined
  | _, _ => .undefined

/-- `value.index(i)`: positional read. -/
def indexAt : JsValue → Nat → JsValue
  | .arr xs, i => xs.getD i .undefined
  | _, _ => .undefined

/-- `value.length()`. -/
def lengthOf : JsValue → Except String Nat
  | .arr xs => .ok xs.length
  | .bytes b => .ok b.length
  | .str s => .ok s.length
  | _ => .error "Expect a value with length"

/-- `value.entries()`: ordered key/value entries of a mapping. -/
def entriesOf : JsValue → Except String (List (String × JsValue))
  | .obj fields => .ok fields
  | _ => .error "Expect an object"

/-- `value.decode_uN()`: strict unsigned coercion at `w` bits. -/
def decodeUInt (w : Nat) : JsValue → Except String Nat
  | .num n => if 0 ≤ n ∧ n < ((2 ^ w : Nat) : Int) then .ok n.toNat
              else .error "Expect a number"
  | _ => .error "Expect a number"

/-- `value.decode_iN()`: strict signed coercion at `w` bits. -/
def decodeSInt (w : Nat) : JsValue → Except String Int
  | .num n => if -((2 ^ (w - 1) : Nat) : Int) ≤ n ∧ n < ((2 ^ (w - 1) : Nat) : Int)
              then .ok n else .error "Expect a number"
  | _ => .error "Expect a number"

/-- `value.decode_bool()`. -/
def decodeBool : JsValue → Except String Bool
  | .bool b => .ok b
  | _ => .error "Expect a boolean"

/-- `JsString::from_js_value`: the UTF-8 content of a string value. -/
def asString : JsValue → Except String (List Nat)
  | .str s => .ok s
  | _ => .error "Expect a string"

/-- `object.set_property(key, value)` on a decoder-built object: JS
semantics overwrite an existing key in place, else append. -/
def objSet : List (String × JsValue) → String → JsValue → List (String × JsValue)
  | [], k, v => [(k, v)]
  | (k', v') :: rest, k, v =>
    if k' = k then (k, v) :: rest else (k', v') :: objSet rest k v

/-- Value of an ASCII hex digit. -/
def hexDigit? (c : Nat) : Option Nat :=
  if 48 ≤ c ∧ c ≤ 57 then some (c - 48)
  else if 97 ≤ c ∧ c ≤ 102 then some (c - 87)
  else if 65 ≤ c ∧ c ≤ 70 then some (c - 55)
  else none

/-- Decode an even run of hex digits into bytes. -/
def hexPairs : List Nat → Option (List Nat)
  | [] => some []
  | c1 :: c2 :: rest =>
    match hexDigit? c1, hexDigit? c2, hexPairs rest with
    | some h, some l, some bs => some ((h * 16 + l) :: bs)
    | _, _, _ => none
  | _ => none

/-- `BytesOrHex` conversion of a string: optional `0x` prefix then hex
digit pairs (modelled from the spec: "a hex-encoded string convertible to
bytes"). -/
def hexToBytes (s : List Nat) : Option (List Nat) :=
  match s with
  | 48 :: 120 :: rest => hexPairs rest
  | _ => hexPairs s

/-- `u8a_or_hex`: give the fast path the raw bytes of a byte-buffer value
or the decoded bytes of a hex string; `none` for every other value
shape. -/
def u8aOrHex (v : JsValue) : Option (Except String (List Nat)) :=
  match v with
  | .bytes b => some (.ok b)
  | .str s =>
    match hexToBytes s with
    | some b => some (.ok b)
    | none => some (.error "Expect a hex string")
  | _ => none

mutual
/-- Byte-buffer/string lengths fit the wire format's `u32` length prefix
(`Compact(len as u32)`); the slice encoders do not themselves range-check
the length. -/
def smallVal : JsValue → Bool
| .bytes b => decide (b.length < 2 ^ 32)
| .str s => decide (s.length < 2 ^ 32)
| .arr xs => smallValList xs
| .obj fs => smallValFields fs
| _ => true

/-- `smallVal` over array elements. -/
def smallValList : List JsValue → Bool
| [] => true
| x :: xs => smallVal x && smallValList xs

/-- `smallVal` over object entries. -/
def smallValFields : List (String × JsValue) → Bool
| [] => true
| (_, v) :: fs => smallVal v && smallValFields fs
end

/-! ## Enum variant lookup (mod.rs `impl Enum`) -/

/-- Inner loop of `Enum::get_variant_by_name`, carrying the enumeration
index. -/
def variantByNameFrom (name : String) : Nat →
    List (String × Option Id × Option Nat) → Except String (String × Option Id × Nat)
  | _, [] => .error ("Unknown variant " ++ name)
  | ind, (vn, tid, scaleInd) :: rest =>
    if vn = name then .ok (vn, tid, scaleInd.getD ind)
    else variantByNameFrom name (ind + 1) rest

/-- `Enum::get_variant_by_name`: first variant with the given name; its
discriminant is the explicit one when declared, else the declaration
index. -/
def getVariantByName (vs : List (String × Option Id × Option Nat)) (name : String) :
    Except String (String × Option Id × Nat) :=
  variantByNameFrom name 0 vs

/-- The linear-scan fallback of `Enum::get_variant_by_index`: first variant
whose explicit discriminant equals the tag. -/
def scanExplicit (tag : Nat) :
    List (String × Option Id × Option Nat) → Except String (String × Option Id)
  | [] => .error ("Unknown variant " ++ toString tag)
  | (n, ty, some ind) :: rest =>
    if tag = ind then .ok (n, ty) else scanExplicit tag rest
  | (_, _, none) :: rest => scanExplicit tag rest

/-- `Enum::get_variant_by_index`: positional entry first (accepted when it
has no explicit discriminant or its explicit discriminant equals the tag),
else the linear scan over explicit discriminants. -/
def getVariantByIndex (vs : List (String × Option Id × Option Nat)) (tag : Nat) :
    Except String (String × Option Id) :=
  match vs[tag]? with
  | some (n, ty, none) => .ok (n, ty)
  | some (n, ty, some ind) =>
    if tag = ind then .ok (n, ty) else scanExplicit tag vs
  | none => scanExplicit tag vs

/-- Index variant of `scanExplicit`: position of the first variant whose
explicit discriminant equals the tag. -/
def scanExplicitIdx (tag : Nat) : Nat →
    List (String × Option Id × Option Nat) → Option Nat
  | _, [] => none
  | i, (_, _, some ind) :: rest =>
    if tag = ind then some i else scanExplicitIdx tag (i + 1) rest
  | i, (_, _, none) :: rest => scanExplicitIdx tag (i + 1) rest

/-- Index variant of `getVariantByIndex`: which declaration position a tag
byte resolves to. -/
def tagIndex (vs : List (String × Option Id × Option Nat)) (tag : Nat) : Option Nat :=
  match vs[tag]? with
  | some (_, _, none) => some tag
  | some (_, _, some ind) =>
    if tag = ind then some tag else scanExplicitIdx tag 0 vs
  | none => scanExplicitIdx tag 0 vs

/-- A tag-faithful enum: every variant's effective discriminant resolves
back (by the index-then-scan rule) to that same variant. -/
def enumFaithful (vs : List (String × Option Id × Option Nat)) : Bool :=
  (List.range vs.length).all fun k =>
    match vs[k]? with
    | some (_, _, e) => tagIndex vs (e.getD k) == some k
    | none => true

/-- The encoder's "no entry names a variant" message. -/
def enumErrMsg (vs : List (String × Option Id × Option Nat)) : String :=
  "Enum with any variant of " ++ String.intercalate ", " (vs.map (fun v => v.1))

/-! ## Primitive codecs (mod.rs `encode_primitive` and friends) -/

/-- The single decoder error used for every underrun or malformed read. -/
def eobMsg : String := "Unexpected end of buffer"

/-- The `compactable_err` message. -/
def compactableMsg : String := "A number or () for compact"

/-- `<[u8] as Encode>::encode`: compact length prefix then the raw bytes. -/
def sliceEnc (b : List Nat) : List Nat := compactEnc b.length ++ b

/-- `encode_primitive`: fixed-width little-endian integers and bool, and
length-prefixed UTF-8 strings. -/
def encodePrimitive (v : JsValue) (p : PrimitiveType) : Except String (List Nat) :=
  match p with
  | .u8 => (decodeUInt 8 v).map (leEnc 1)
  | .u16 => (decodeUInt 16 v).map (leEnc 2)
  | .u32 => (decodeUInt 32 v).map (leEnc 4)
  | .u64 => (decodeUInt 64 v).map (leEnc 8)
  | .u128 => (decodeUInt 128 v).map (leEnc 16)
  | .i8 => (decodeSInt 8 v).map (twosEnc 1)
  | .i16 => (decodeSInt 16 v).map (twosEnc 2)
  | .i32 => (decodeSInt 32 v).map (twosEnc 4)
  | .i64 => (decodeSInt 64 v).map (twosEnc 8)
  | .i128 => (decodeSInt 128 v).map (twosEnc 16)
  | .bool => (decodeBool v).map (fun b => [cond b 1 0])
  | .str => (asString v).map sliceEnc

/-- `decode_primitive`. -/
def decodePrimitive (p : PrimitiveType) (buf : List Nat) :
    Except String (JsValue × List Nat) :=
  match p with
  | .u8 =>
    match leDec 1 buf with
    | some (n, r) => .ok (.num n, r)
    | none => .error eobMsg
  | .u16 =>
    match leDec 2 buf with
    | some (n, r) => .ok (.num n, r)
    | none => .error eobMsg
  | .u32 =>
    match leDec 4 buf with
    | some (n, r) => .ok (.num n, r)
    | none => .error eobMsg
  | .u64 =>
    match leDec 8 buf with
    | some (n, r) => .ok (.num n, r)
    | none => .error eobMsg
  | .u128 =>
    match leDec 16 buf with
    | some (n, r) => .ok (.num n, r)
    | none => .error eobMsg
  | .i8 =>
    match leDec 1 buf with
    | some (n, r) => .ok (.num (twosVal 1 n), r)
    | none => .error eobMsg
  | .i16 =>
    match leDec 2 buf with
    | some (n, r) => .ok (.num (twosVal 2 n), r)
    | none => .error eobMsg
  | .i32 =>
    match leDec 4 buf with
    | some (n, r) => .ok (.num (twosVal 4 n), r)
    | none => .error eobMsg
  | .i64 =>
    match leDec 8 buf with
    | some (n, r) => .ok (.num (twosVal 8 n), r)
    | none => .error eobMsg
  | .i128 =>
    match leDec 16 buf with
    | some (n, r) => .ok (.num (twosVal 16 n), r)
    | none => .error eobMsg
  | .bool =>
    match buf with
    | 0 :: r => .ok (.bool false, r)
    | 1 :: r => .ok (.bool true, r)
    | _ => .error eobMsg
  | .str =>
    match compactDec 32 buf with
    | some (len, r) =>
      if len ≤ r.length then .ok (.str (r.take len), r.drop len)
      else .error eobMsg
    | none => .error eobMsg

/-- `encode_compact_primitive`: only the unsigned primitive integers are
compact-encodable; everything else is the `compactable_err`. -/
def encodeCompactPrim (v : JsValue) (p : PrimitiveType) : Except String (List Nat) :=
  match p with
  | .u8 => (decodeUInt 8 v).map compactEnc
  | .u16 => (decodeUInt 16 v).map compactEnc
  | .u32 => (decodeUInt 32 v).map compactEnc
  | .u64 => (decodeUInt 64 v).map compactEnc
  | .u128 => (decodeUInt 128 v).map compactEnc
  | _ => .error compactableMsg

/-- `decode_compact_primitive`. -/
def decodeCompactPrim (p : PrimitiveType) (buf : List Nat) :
    Except String (JsValue × List Nat) :=
  match p with
  | .u8 =>
    match compactDec 8 buf with
    | some (n, r) => .ok (.num n, r)
    | none => .error eobMsg
  | .u16 =>
    match compactDec 16 buf with
    | some (n, r) => .ok (.num n, r)
    | none => .error eobMsg
  | .u32 =>
    match compactDec 32 buf with
    | some (n, r) => .ok (.num n, r)
    | none => .error eobMsg
  | .u64 =>
    match compactDec 64 buf with
    | some (n, r) => .ok (.num n, r)
    | none => .error eobMsg
  | .u128 =>
    match compactDec 128 buf with
    | some (n, r) => .ok (.num n, r)
    | none => .error eobMsg
  | _ => .error compactableMsg

/-! ## The value encoder (mod.rs `encode_value`)

`encode_value`/`decode_valude` recurse through registry-resolved shapes;
the registry can make that recursion (and the alias chasing inside每
resolution) non-terminating, so both take fuel: the result `none` means
the Rust original is still running after that recursion budget.  Loop
bodies (`for` loops over elements, fields, entries) are factored into
helpers parameterized by the recursive call at the smaller fuel. -/

/-- The `for i in 0..length` element loop of the `Seq`/`Array` encoder
branches. -/
def encIdxLoop (enc : Id → JsValue → Option (Except String (List Nat)))
    (tid : Id) (v : JsValue) : Nat → Nat → Option (Except String (List Nat))
  | _, 0 => some (.ok [])
  | i, count + 1 =>
    match enc tid (indexAt v i) with
    | some (.ok bs) =>
      match encIdxLoop enc tid v (i + 1) count with
      | some (.ok rest) => some (.ok (bs ++ rest))
      | other => other
    | other => other

/-- The positional element loop of the `Tuple` encoder branch. -/
def encTupleLoop (enc : Id → JsValue → Option (Except String (List Nat)))
    (v : JsValue) : List Id → Nat → Option (Except String (List Nat))
  | [], _ => some (.ok [])
  | tid :: tids, i =>
    match enc tid (indexAt v i) with
    | some (.ok bs) =>
      match encTupleLoop enc v tids (i + 1) with
      | some (.ok rest) => some (.ok (bs ++ rest))
      | other => other
    | other => other

/-- The field loop of the `Struct` encoder branch. -/
def encStructLoop (enc : Id → JsValue → Option (Except String (List Nat)))
    (v : JsValue) : List (String × Id) → Option (Except String (List Nat))
  | [] => some (.ok [])
  | (name, tid) :: fields =>
    match enc tid (getProp v name) with
    | some (.ok bs) =>
      match encStructLoop enc v fields with
      | some (.ok rest) => some (.ok (bs ++ rest))
      | other => other
    | other => other

/-- The entry loop of the `Enum` encoder branch: skip entries whose key
names no variant; the first matching entry selects the variant; error
listing the variant names only when no entry matched. -/
def encEnumLoop (enc : Id → JsValue → Option (Except String (List Nat)))
    (vs : List (String × Option Id × Option Nat)) :
    List (String × JsValue) → Option (Except String (List Nat))
  | [] => some (.error (enumErrMsg vs))
  | (k, pv) :: entries =>
    match getVariantByName vs k with
    | .error _ => encEnumLoop enc vs entries
    | .ok (_, tyOpt, ind) =>
      if ind < 256 then
        match tyOpt with
        | none => some (.ok [ind])
        | some ty =>
          match enc ty pv with
          | some (.ok bs) => some (.ok (ind :: bs))
          | other => other
      else some (.error ("Variant index " ++ toString ind ++ " is too large"))

/-- `encode_value`.  Top-level resolution uses the literal fallback;
element-type resolution for the byte fast paths does not. -/
def encodeF : Nat → Registry → Id → JsValue → Option (Except String (List Nat))
  | 0, _, _, _ => none
  | fuel + 1, r, tid, v =>
    match Registry.resolve_type_fuel (fuel + 1) r tid true with
    | none => none
    | some (.error e) => some (.error e)
    | some (.ok t) =>
      match t with
      | .alias _ => some (.error "unreachable: alias post-resolution")
      | .primitive p =>
        match encodePrimitive v p with
        | .ok bs => some (.ok bs)
        | .error e => some (.error e)
      | .compact tid2 =>
        match Registry.resolve_type_fuel (fuel + 1) r tid2 false with
        | none => none
        | some (.error e) => some (.error e)
        | some (.ok (.primitive p)) =>
          match encodeCompactPrim v p with
          | .ok bs => some (.ok bs)
          | .error e => some (.error e)
        | some (.ok (.tuple [])) => some (.ok [])
        | some (.ok _) => some (.error compactableMsg)
      | .seq tid2 =>
        match Registry.resolve_type_fuel (fuel + 1) r tid2 false with
        | none => none
        | some (.error e) => some (.error e)
        | some (.ok t2) =>
          match (if t2.isU8 then u8aOrHex v else none) with
          | some (.ok bs) => some (.ok (sliceEnc bs))
          | some (.error e) => some (.error e)
          | none =>
            match decodeUInt 32 (getProp v "length") with
            | .error e => some (.error e)
            | .ok len =>
              match encIdxLoop (fun tid3 v3 => encodeF fuel r tid3 v3) tid2 v 0 len with
              | some (.ok bs) => some (.ok (compactEnc len ++ bs))
              | other => other
      | .tuple ids => encTupleLoop (fun tid3 v3 => encodeF fuel r tid3 v3) v ids 0
      | .array tid2 len =>
        match Registry.resolve_type_fuel (fuel + 1) r tid2 false with
        | none => none
        | some (.error e) => some (.error e)
        | some (.ok t2) =>
          match (if t2.isU8 then u8aOrHex v else none) with
          | some (.ok bs) =>
            if bs.length = len then some (.ok bs)
            else some (.error ("Expected array of length " ++ toString len
              ++ ", got " ++ toString bs.length))
          | some (.error e) => some (.error e)
          | none =>
            match lengthOf v with
            | .error e => some (.error e)
            | .ok alen =>
              if alen = len then
                encIdxLoop (fun tid3 v3 => encodeF fuel r tid3 v3) tid2 v 0 len
              else some (.error ("Expected array of length " ++ toString len
                ++ ", got " ++ toString alen))
      | .enum vs =>
        match entriesOf v with
        | .error e => some (.error e)
        | .ok entries => encEnumLoop (fun tid3 v3 => encodeF fuel r tid3 v3) vs entries
      | .struct fields => encStructLoop (fun tid3 v3 => encodeF fuel r tid3 v3) v fields

/-! ## The value decoder (mod.rs `decode_valude`) -/

/-- The fixed-count element loop of the `Seq`/`Array` decoder branches. -/
def decIdxLoop (dec : Id → List Nat → Option (Except String (JsValue × List Nat)))
    (tid : Id) : Nat → List Nat → Option (Except String (List JsValue × List Nat))
  | 0, buf => some (.ok ([], buf))
  | count + 1, buf =>
    match dec tid buf with
    | some (.ok (v, buf')) =>
      match decIdxLoop dec tid count buf' with
      | some (.ok (vs, buf'')) => some (.ok (v :: vs, buf''))
      | other => other
    | some (.error e) => some (.error e)
    | none => none

/-- The element loop of the `Tuple` decoder branch. -/
def decTupleLoop (dec : Id → List Nat → Option (Except String (JsValue × List Nat))) :
    List Id → List Nat → Option (Except String (List JsValue × List Nat))
  | [], buf => some (.ok ([], buf))
  | tid :: tids, buf =>
    match dec tid buf with
    | some (.ok (v, buf')) =>
      match decTupleLoop dec tids buf' with
      | some (.ok (vs, buf'')) => some (.ok (v :: vs, buf''))
      | other => other
    | some (.error e) => some (.error e)
    | none => none

/-- The field loop of the `Struct` decoder branch (`set_property` in
declaration order). -/
def decStructLoop (dec : Id → List Nat → Option (Except String (JsValue × List Nat))) :
    List (String × Id) → List Nat → List (String × JsValue) →
    Option (Except String (List (String × JsValue) × List Nat))
  | [], buf, acc => some (.ok (acc, buf))
  | (name, tid) :: fields, buf, acc =>
    match dec tid buf with
    | some (.ok (v, buf')) => decStructLoop dec fields buf' (objSet acc name v)
    | some (.error e) => some (.error e)
    | none => none

/-- `decode_valude`. -/
def decodeF : Nat → Registry → Id → List Nat → Option (Except String (JsValue × List Nat))
  | 0, _, _, _ => none
  | fuel + 1, r, tid, buf =>
    match Registry.resolve_type_fuel (fuel + 1) r tid true with
    | none => none
    | some (.error e) => some (.error e)
    | some (.ok t) =>
      match t with
      | .alias _ => some (.error "unreachable: alias post-resolution")
      | .primitive p =>
        match decodePrimitive p buf with
        | .ok (v, buf') => some (.ok (v, buf'))
        | .error e => some (.error e)
      | .compact tid2 =>
        match Registry.resolve_type_fuel (fuel + 1) r tid2 false with
        | none => none
        | some (.error e) => some (.error e)
        | some (.ok (.primitive p)) =>
          match decodeCompactPrim p buf with
          | .ok (v, buf') => some (.ok (v, buf'))
          | .error e => some (.error e)
        | some (.ok (.tuple [])) => some (.ok (.arr [], buf))
        | some (.ok _) => some (.error compactableMsg)
      | .seq tid2 =>
        match Registry.resolve_type_fuel (fuel + 1) r tid2 false with
        | none => none
        | some (.error e) => some (.error e)
        | some (.ok t2) =>
          if t2.isU8 then
            match compactDec 32 buf with
            | none => some (.error eobMsg)
            | some (len, r1) =>
              if len ≤ r1.length then some (.ok (.bytes (r1.take len), r1.drop len))
              else some (.error eobMsg)
          else
            match compactDec 32 buf with
            | none => some (.error eobMsg)
            | some (len, r1) =>
              match decIdxLoop (fun tid3 b3 => decodeF fuel r tid3 b3) tid2 len r1 with
              | some (.ok (xs, buf')) => some (.ok (.arr xs, buf'))
              | some (.error e) => some (.error e)
              | none => none
      | .tuple ids =>
        match decTupleLoop (fun tid3 b3 => decodeF fuel r tid3 b3) ids buf with
        | some (.ok (xs, buf')) => some (.ok (.arr xs, buf'))
        | some (.error e) => some (.error e)
        | none => none
      | .array tid2 len =>
        match Registry.resolve_type_fuel (fuel + 1) r tid2 false with
        | none => none
        | some (.error e) => some (.error e)
        | some (.ok t2) =>
          if t2.isU8 then
            if len ≤ buf.length then some (.ok (.bytes (buf.take len), buf.drop len))
            else some (.error eobMsg)
          else
            match decIdxLoop (fun tid3 b3 => decodeF fuel r tid3 b3) tid2 len buf with
            | some (.ok (xs, buf')) => some (.ok (.arr xs, buf'))
            | some (.error e) => some (.error e)
            | none => none
      | .enum vs =>
        match buf with
        | [] => some (.error eobMsg)
        | tag :: buf' =>
          match getVariantByIndex vs tag with
          | .error e => some (.error e)
          | .ok (name, none) => some (.ok (.obj [(name, .null)], buf'))
          | .ok (name, some ty) =>
            match decodeF fuel r ty buf' with
            | some (.ok (pv, buf'')) => some (.ok (.obj [(name, pv)], buf''))
            | some (.error e) => some (.error e)
            | none => none
      | .struct fields =>
        match decStructLoop (fun tid3 b3 => decodeF fuel r tid3 b3) fields buf [] with
        | some (.ok (fs, buf')) => some (.ok (.obj fs, buf'))
        | some (.error e) => some (.error e)
        | none => none

/-! ## Canonical form of an encodable value

`canonF fuel r tid v` is the value the decoder reconstructs from the
encoder's output for `v` — the representative of `v` under the type's
equality: byte buffers by content (hex strings read as their bytes),
primitives by value, aggregates structurally (sequences/tuples/arrays
element-wise in positional order, structs field-wise by declared field,
enums by the first entry naming a variant).  It is defined by the same
branch structure as `encodeF`. -/

/-- Element canonicalisation loop for sequences and arrays. -/
def canIdxLoop (can : Id → JsValue → Option (Except String JsValue))
    (tid : Id) (v : JsValue) : Nat → Nat → Option (Except String (List JsValue))
  | _, 0 => some (.ok [])
  | i, count + 1 =>
    match can tid (indexAt v i) with
    | some (.ok c) =>
      match canIdxLoop can tid v (i + 1) count with
      | some (.ok cs) => some (.ok (c :: cs))
      | other => other
    | some (.error e) => some (.error e)
    | none => none

/-- Positional canonicalisation loop for tuples. -/
def canTupleLoop (can : Id → JsValue → Option (Except String JsValue))
    (v : JsValue) : List Id → Nat → Option (Except String (List JsValue))
  | [], _ => some (.ok [])
  | tid :: tids, i =>
    match can tid (indexAt v i) with
    | some (.ok c) =>
      match canTupleLoop can v tids (i + 1) with
      | some (.ok cs) => some (.ok (c :: cs))
      | other => other
    | some (.error e) => some (.error e)
    | none => none

/-- Field canonicalisation loop for structs. -/
def canStructLoop (can : Id → JsValue → Option (Except String JsValue))
    (v : JsValue) : List (String × Id) → List (String × JsValue) →
    Option (Except String (List (String × JsValue)))
  | [], acc => some (.ok acc)
  | (name, tid) :: fields, acc =>
    match can tid (getProp v name) with
    | some (.ok c) => canStructLoop can v fields (objSet acc name c)
    | some (.error e) => some (.error e)
    | none => none

/-- Entry canonicalisation loop for enums. -/
def canEnumLoop (can : Id → JsValue → Option (Except String JsValue))
    (vs : List (String × Option Id × Option Nat)) :
    List (String × JsValue) → Option (Except String JsValue)
  | [] => some (.error (enumErrMsg vs))
  | (k, pv) :: entries =>
    match getVariantByName vs k with
    | .error _ => canEnumLoop can vs entries
    | .ok (name, tyOpt, ind) =>
      if ind < 256 then
        match tyOpt with
        | none => some (.ok (.obj [(name, .null)]))
        | some ty =>
          match can ty pv with
          | some (.ok c) => some (.ok (.obj [(name, c)]))
          | some (.error e) => some (.error e)
          | none => none
      else some (.error ("Variant index " ++ toString ind ++ " is too large"))

/-- Byte-wise canonicalisation loop: the value of each element of a
`u8`-element aggregate encoded through the general (non-fast-path)
branch. -/
def canByteLoop (v : JsValue) : Nat → Nat → Except String (List Nat)
  | _, 0 => .ok []
  | i, count + 1 =>
    match decodeUInt 8 (indexAt v i) with
    | .ok m =>
      match canByteLoop v (i + 1) count with
      | .ok ms => .ok (m :: ms)
      | .error e => .error e
    | .error e => .error e

/-- The canonical form of `v` at the type referenced by `tid`. -/
def canonF : Nat → Registry → Id → JsValue → Option (Except String JsValue)
  | 0, _, _, _ => none
  | fuel + 1, r, tid, v =>
    match Registry.resolve_type_fuel (fuel + 1) r tid true with
    | none => none
    | some (.error e) => some (.error e)
    | some (.ok t) =>
      match t with
      | .alias _ => some (.error "unreachable: alias post-resolution")
      | .primitive p =>
        match encodePrimitive v p with
        | .ok _ => some (.ok v)
        | .error e => some (.error e)
      | .compact tid2 =>
        match Registry.resolve_type_fuel (fuel + 1) r tid2 false with
        | none => none
        | some (.error e) => some (.error e)
        | some (.ok (.primitive p)) =>
          match encodeCompactPrim v p with
          | .ok _ => some (.ok v)
          | .error e => some (.error e)
        | some (.ok (.tuple [])) => some (.ok (.arr []))
        | some (.ok _) => some (.error compactableMsg)
      | .seq tid2 =>
        match Registry.resolve_type_fuel (fuel + 1) r tid2 false with
        | none => none
        | some (.error e) => some (.error e)
        | some (.ok t2) =>
          if t2.isU8 then
            match u8aOrHex v with
            | some (.ok bs) => some (.ok (.bytes bs))
            | some (.error e) => some (.error e)
            | none =>
              match decodeUInt 32 (getProp v "length") with
              | .error e => some (.error e)
              | .ok len =>
                match canByteLoop v 0 len with
                | .ok ms => some (.ok (.bytes ms))
                | .error e => some (.error e)
          else
            match decodeUInt 32 (getProp v "length") with
            | .error e => some (.error e)
            | .ok len =>
              match canIdxLoop (fun tid3 v3 => canonF fuel r tid3 v3) tid2 v 0 len with
              | some (.ok cs) => some (.ok (.arr cs))
              | some (.error e) => some (.error e)
              | none => none
      | .tuple ids =>
        match canTupleLoop (fun tid3 v3 => canonF fuel r tid3 v3) v ids 0 with
        | some (.ok cs) => some (.ok (.arr cs))
        | some (.error e) => some (.error e)
        | none => none
      | .array tid2 len =>
        match Registry.resolve_type_fuel (fuel + 1) r tid2 false with
        | none => none
        | some (.error e) => some (.error e)
        | some (.ok t2) =>
          if t2.isU8 then
            match u8aOrHex v with
            | some (.ok bs) =>
              if bs.length = len then some (.ok (.bytes bs))
              else some (.error ("Expected array of length " ++ toString len
                ++ ", got " ++ toString bs.length))
            | some (.error e) => some (.error e)
            | none =>
              match lengthOf v with
              | .error e => some (.error e)
              | .ok alen =>
                if alen = len then
                  match canByteLoop v 0 len with
                  | .ok ms => some (.ok (.bytes ms))
                  | .error e => some (.error e)
                else some (.error ("Expected array of length " ++ toString len
                  ++ ", got " ++ toString alen))
          else
            match lengthOf v with
            | .error e => some (.error e)
            | .ok alen =>
              if alen = len then
                match canIdxLoop (fun tid3 v3 => canonF fuel r tid3 v3) tid2 v 0 len with
                | some (.ok cs) => some (.ok (.arr cs))
                | some (.error e) => some (.error e)
                | none => none
              else some (.error ("Expected array of length " ++ toString len
                ++ ", got " ++ toString alen))
      | .enum vs =>
        match entriesOf v with
        | .error e => some (.error e)
        | .ok entries => canEnumLoop (fun tid3 v3 => canonF fuel r tid3 v3) vs entries
      | .struct fields =>
        match canStructLoop (fun tid3 v3 => canonF fuel r tid3 v3) v fields [] with
        | some (.ok fs) => some (.ok (.obj fs))
        | some (.error e) => some (.error e)
        | none => none

/-! ## Tag-faithful reachability -/

/-- Enum-faithfulness of the component references of a resolved shape,
given the check for one nested reference. -/
def faithTyF (frec : Id → Bool) : Ty → Bool
  | .enum vs =>
    enumFaithful vs &&
      vs.all fun variant =>
        match variant.2.1 with
        | some id => frec id
        | none => true
  | .seq tid => frec tid
  | .array tid _ => frec tid
  | .tuple ids => ids.all frec
  | .struct fields => fields.all fun f => frec f.2
  | _ => true

/-- Every enum reachable from `tid` within the given recursion budget (by
the encoder's own resolution discipline) is tag-faithful. -/
def faithReachF : Nat → Registry → Id → Bool
  | 0, _, _ => true
  | fuel + 1, r, tid =>
    match Registry.resolve_type_fuel (fuel + 1) r tid true with
    | some (.ok t) => faithTyF (fun tid2 => faithReachF fuel r tid2) t
    | _ => true

/-- The round-trip induction statement at one fuel level: whenever the
encoder succeeds on a length-bounded value whose reachable enums are
tag-faithful, the canonicaliser succeeds and the decoder reads the encoded
bytes back to exactly the canonical value, leaving trailing bytes
unconsumed. -/
def EncOk (fuel : Nat) : Prop :=
  ∀ (r : Registry) (tid : Id) (v : JsValue) (out rest : List Nat),
    smallVal v = true →
    faithReachF fuel r tid = true →
    encodeF fuel r tid v = some (.ok out) →
    ∃ c, canonF fuel r tid v = some (.ok c) ∧
      decodeF fuel r tid (out ++ rest) = some (.ok (c, rest))

/-! ## Decoder buffer-extension (trailing bytes are ignored) -/

/-- The extension induction statement at one fuel level: a successful
decode is unaffected by extra trailing bytes, which reappear verbatim in
the unconsumed remainder. -/
def DecExt (fuel : Nat) : Prop :=
  ∀ (r : Registry) (tid : Id) (buf extra : List Nat) (v : JsValue) (rem : List Nat),
    decodeF fuel r tid buf = some (.ok (v, rem)) →
    decodeF fuel r tid (buf ++ extra) = some (.ok (v, rem ++ extra))

/-! ## Fixtures for the claim theorems -/

/-- The enum `<A,B:u32,C::5>` of the spec's discriminant example. -/
def choiceTy : Ty :=
  .enum [("A", none, none), ("B", some (Id.ofName "u32"), none), ("C", none, some 5)]

/-- A registry holding `Choice=<A,B:u32,C::5>`. -/
def rChoice : Registry := Registry.empty.append [⟨⟨some "Choice", []⟩, choiceTy⟩]

/-- The registry parsed from `A=B;B=A`: a cyclic alias chain. -/
def rCyc : Registry := Registry.empty.append
  [⟨⟨some "A", []⟩, .alias (Id.ofName "B")⟩, ⟨⟨some "B", []⟩, .alias (Id.ofName "A")⟩]

/-- `Pair<T>={a:T,b:T}` as a registry. -/
def rPair : Registry := Registry.empty.append
  [⟨⟨some "Pair", ["T"]⟩, .struct [("a", Id.ofName "T"), ("b", Id.ofName "T")]⟩]

/-- A generic definition whose parameter occurs under every composite
shape: `Nest<T> = {s:[T], t:(T), e:<V:T>, a:[T;3], p:T}`. -/
def rNest : Registry := Registry.empty.append
  [⟨⟨some "Nest", ["T"]⟩, .struct
    [("s", .mk (.type (.seq (Id.ofName "T"))) []),
     ("t", .mk (.type (.tuple [Id.ofName "T"])) []),
     ("e", .mk (.type (.enum [("V", some (Id.ofName "T"), none)])) []),
     ("a", .mk (.type (.array (Id.ofName "T") 3)) []),
     ("p", Id.ofName "T")]⟩]

/-- An inline `[u8;32]` reference. -/
def tidArr32 : Id := .mk (.type (.array (Id.ofName "u8") 32)) []

/-- An inline `[u8]` reference. -/
def tidSeq8 : Id := .mk (.type (.seq (Id.ofName "u8"))) []

/-- An inline `@i32` reference. -/
def tidCi32 : Id := .mk (.type (.compact (Id.ofName "i32"))) []

/-- An inline `@u32` reference. -/
def tidCu32 : Id := .mk (.type (.compact (Id.ofName "u32"))) []

/-- An inline `@()` reference (compact of the empty tuple). -/
def tidCunit : Id := .mk (.type (.compact (.mk (.type (.tuple [])) []))) []

/-- An inline `@str` reference (compact of a non-numeric shape). -/
def tidCstr : Id := .mk (.type (.compact (Id.ofName "str"))) []

/-- An inline `<A,B::0>` reference: variant `B`'s explicit discriminant `0`
collides with variant `A`'s positional discriminant. -/
def tidBadEnum : Id :=
  .mk (.type (.enum [("A", none, none), ("B", none, some 0)])) []

/-- An inline `{x:u8,s:str}` reference. -/
def tidXS : Id :=
  .mk (.type (.struct [("x", Id.ofName "u8"), ("s", Id.ofName "str")])) []

/-- The host-level `decode`: run the decoder from the start of the buffer
and return the value, ignoring whatever bytes remain unconsumed. -/
def jsDecode (fuel : Nat) (r : Registry) (tid : Id) (bytes : List Nat) :
    Option (Except String JsValue) :=
  match decodeF fuel r tid bytes with
  | some (.ok (v, _)) => some (.ok v)
  | some (.error e) => some (.error e)
  | none => none

/-! ## Theorems -/

theorem leEnc_length (w n : Nat) : (leEnc w n).length = w := by
  induction w generalizing n with
  | zero => rfl
  | succ w ih => simp [leEnc, ih]

theorem leDec_leEnc (w n : Nat) (rest : List Nat) (h : n < 2 ^ (8 * w)) :
    leDec w (leEnc w n ++ rest) = some (n, rest) := by
  induction w generalizing n with
  | zero =>
    have : n = 0 := by simpa using h
    subst this; rfl
  | succ w ih =>
    have hdiv : n / 256 < 2 ^ (8 * w) := by
      apply Nat.div_lt_of_lt_mul
      calc n < 2 ^ (8 * (w + 1)) := h
      _ = 256 * 2 ^ (8 * w) := by
            rw [show 8 * (w + 1) = 8 + 8 * w by ring, pow_add]
            norm_num
    simp only [leEnc, List.cons_append, leDec, List.append_eq, ih (n / 256) hdiv]
    rw [Nat.mod_add_div]

theorem leDec_extend (w : Nat) (buf extra : List Nat) (n : Nat) (r : List Nat)
    (h : leDec w buf = some (n, r)) :
    leDec w (buf ++ extra) = some (n, r ++ extra) := by
  induction w generalizing buf n with
  | zero =>
    simp only [leDec] at h ⊢
    cases h; rfl
  | succ w ih =>
    match buf with
    | [] => simp [leDec] at h
    | b :: rest =>
      simp only [leDec] at h
      cases hd : leDec w rest with
      | none => rw [hd] at h; cases h
      | some p =>
        rw [hd] at h
        obtain ⟨m, r'⟩ := p
        simp only at h
        cases h
        simp only [List.cons_append, leDec, List.append_eq, ih rest m hd]

theorem byteLen_spec (n : Nat) (h : 0 < n) :
    2 ^ (8 * (byteLen n - 1)) ≤ n ∧ n < 2 ^ (8 * byteLen n) := by
  unfold byteLen
  constructor
  · simp only [Nat.add_sub_cancel]
    calc 2 ^ (8 * Nat.log 256 n) = 256 ^ Nat.log 256 n := by
          rw [show (256 : Nat) = 2 ^ 8 by norm_num, ← pow_mul]
    _ ≤ n := Nat.pow_log_le_self 256 (by omega)
  · calc n < 256 ^ (Nat.log 256 n + 1) := Nat.lt_pow_succ_log_self (by norm_num) n
    _ = 2 ^ (8 * (Nat.log 256 n + 1)) := by
          rw [show (256 : Nat) = 2 ^ 8 by norm_num, ← pow_mul]

theorem compactDec_compactEnc (w n : Nat) (rest : List Nat)
    (hw : 8 ∣ w) (h : n < 2 ^ w) :
    compactDec w (compactEnc n ++ rest) = some (n, rest) := by
  unfold compactEnc
  by_cases h6 : n < 2 ^ 6
  · simp only [if_pos h6, List.cons_append, List.nil_append, compactDec]
    rw [if_pos (show n * 4 % 4 = 0 by omega)]
    rw [show n * 4 / 4 = n by omega]
  · rw [if_neg h6]
    by_cases h14 : n < 2 ^ 14
    · rw [if_pos h14]
      have hxlt : n * 4 + 1 < 2 ^ (8 * 2) := by norm_num at h14 ⊢; omega
      have hdec := leDec_leEnc 2 (n * 4 + 1) rest hxlt
      have hcons : leEnc 2 (n * 4 + 1) ++ rest
          = (n * 4 + 1) % 256 :: (leEnc 1 ((n * 4 + 1) / 256) ++ rest) := by
        simp [leEnc]
      rw [hcons]
      simp only [compactDec]
      rw [if_neg (by omega), if_pos (show ((n * 4 + 1) % 256) % 4 = 1 by omega)]
      rw [← hcons, hdec]
      simp only
      rw [show (n * 4 + 1) / 4 = n by omega]
      rw [if_pos ⟨by norm_num at h6 ⊢; omega, h⟩]
    · rw [if_neg h14]
      by_cases h30 : n < 2 ^ 30
      · rw [if_pos h30]
        have hxlt : n * 4 + 2 < 2 ^ (8 * 4) := by norm_num at h30 ⊢; omega
        have hdec := leDec_leEnc 4 (n * 4 + 2) rest hxlt
        have hcons : leEnc 4 (n * 4 + 2) ++ rest
            = (n * 4 + 2) % 256 :: (leEnc 3 ((n * 4 + 2) / 256) ++ rest) := by
          simp [leEnc]
        have h14' : 2 ^ 14 ≤ n := Nat.le_of_not_lt h14
        have hw8 : ¬ w ≤ 8 := by
          intro hc
          have hle : (2 : Nat) ^ w ≤ 2 ^ 8 := Nat.pow_le_pow_right (by norm_num) hc
          norm_num at hle h14'
          omega
        rw [hcons]
        simp only [compactDec]
        rw [if_neg (by omega), if_neg (by omega),
          if_pos (show ((n * 4 + 2) % 256) % 4 = 2 by omega), if_neg hw8]
        rw [← hcons, hdec]
        simp only
        rw [show (n * 4 + 2) / 4 = n by omega]
        rw [if_pos ⟨by norm_num at h14' ⊢; omega, h⟩]
      · rw [if_neg h30]
        have h30' : 2 ^ 30 ≤ n := Nat.le_of_not_lt h30
        have hn0 : 0 < n := by norm_num at h30'; omega
        obtain ⟨hlo, hhi⟩ := byteLen_spec n hn0
        have hbl4 : 4 ≤ byteLen n := by
          by_contra hc
          have hble : byteLen n ≤ 3 := by omega
          have hlt : n < 2 ^ (8 * 3) := by
            calc n < 2 ^ (8 * byteLen n) := hhi
            _ ≤ 2 ^ (8 * 3) := Nat.pow_le_pow_right (by norm_num) (by omega)
          norm_num at hlt h30'
          omega
        have hw16 : ¬ w ≤ 16 := by
          intro hc
          have hle : (2 : Nat) ^ w ≤ 2 ^ 16 := Nat.pow_le_pow_right (by norm_num) hc
          norm_num at hle h30'
          omega
        have hblw : byteLen n ≤ w / 8 := by
          rcases hw with ⟨k, hk⟩
          subst hk
          by_contra hc
          push_neg at hc
          have hk8 : 8 * k / 8 = k := by omega
          rw [hk8] at hc
          have hmono : (2 : Nat) ^ (8 * k) ≤ 2 ^ (8 * (byteLen n - 1)) :=
            Nat.pow_le_pow_right (by norm_num) (by omega)
          omega
        simp only [List.cons_append, compactDec]
        rw [if_neg (by omega), if_neg (by omega), if_neg (by omega), if_neg hw16]
        rw [show ((byteLen n - 4) * 4 + 3) / 4 + 4 = byteLen n by omega]
        rw [if_neg (by omega)]
        rw [leDec_leEnc (byteLen n) n rest hhi]
        simp only
        have hcond : (if byteLen n = 4 then 2 ^ 30 else 2 ^ (8 * (byteLen n - 1))) ≤ n := by
          by_cases hb : byteLen n = 4
          · rw [if_pos hb]; exact h30'
          · rw [if_neg hb]; exact hlo
        rw [if_pos hcond]

theorem compactDec_extend (w : Nat) (buf extra : List Nat) (n : Nat) (r : List Nat)
    (h : compactDec w buf = some (n, r)) :
    compactDec w (buf ++ extra) = some (n, r ++ extra) := by
  match buf with
  | [] => simp [compactDec] at h
  | b :: rest =>
    simp only [compactDec, List.cons_append] at h ⊢
    by_cases h0 : b % 4 = 0
    · rw [if_pos h0] at h ⊢
      cases h; rfl
    · rw [if_neg h0] at h ⊢
      by_cases h1 : b % 4 = 1
      · rw [if_pos h1] at h ⊢
        cases hd : leDec 2 (b :: rest) with
        | none => rw [hd] at h; cases h
        | some p =>
          obtain ⟨x, r'⟩ := p
          rw [hd] at h
          simp only at h
          rw [show b :: (rest ++ extra) = (b :: rest) ++ extra from rfl,
            leDec_extend 2 (b :: rest) extra x r' hd]
          simp only
          by_cases hc : 63 < x / 4 ∧ x / 4 < 2 ^ w
          · rw [if_pos hc] at h ⊢
            cases h; rfl
          · rw [if_neg hc] at h; cases h
      · rw [if_neg h1] at h ⊢
        by_cases h2 : b % 4 = 2
        · rw [if_pos h2] at h ⊢
          by_cases hw8 : w ≤ 8
          · rw [if_pos hw8] at h; cases h
          · rw [if_neg hw8] at h ⊢
            cases hd : leDec 4 (b :: rest) with
            | none => rw [hd] at h; cases h
            | some p =>
              obtain ⟨x, r'⟩ := p
              rw [hd] at h
              simp only at h
              rw [show b :: (rest ++ extra) = (b :: rest) ++ extra from rfl,
                leDec_extend 4 (b :: rest) extra x r' hd]
              simp only
              by_cases hc : 2 ^ 14 - 1 < x / 4 ∧ x / 4 < 2 ^ w
              · rw [if_pos hc] at h ⊢
                cases h; rfl
              · rw [if_neg hc] at h; cases h
        · rw [if_neg h2] at h ⊢
          by_cases hw16 : w ≤ 16
          · rw [if_pos hw16] at h; cases h
          · rw [if_neg hw16] at h ⊢
            by_cases hl : w / 8 < b / 4 + 4
            · rw [if_pos hl] at h; cases h
            · rw [if_neg hl] at h ⊢
              cases hd : leDec (b / 4 + 4) rest with
              | none => rw [hd] at h; cases h
              | some p =>
                obtain ⟨x, r'⟩ := p
                rw [hd] at h
                simp only at h
                rw [leDec_extend (b / 4 + 4) rest extra x r' hd]
                simp only
                by_cases hc : (if b / 4 + 4 = 4 then 2 ^ 30 else 2 ^ (8 * (b / 4 + 4 - 1))) ≤ x
                · rw [if_pos hc] at h ⊢
                  cases h; rfl
                · rw [if_neg hc] at h; cases h

theorem twosVal_twosEnc (w : Nat) (i : Int) (hw : 0 < w)
    (hlo : -(2 ^ (8 * w - 1) : Nat) ≤ i) (hhi : i < (2 ^ (8 * w - 1) : Nat)) :
    ∃ n : Nat, (i % (2 ^ (8 * w) : Nat)).toNat = n ∧ n < 2 ^ (8 * w) ∧ twosVal w n = i := by
  have hM : ((2 ^ (8 * w) : Nat) : Int) = 2 * ((2 ^ (8 * w - 1) : Nat) : Int) := by
    have h1 : (2 : Nat) ^ (8 * w) = 2 * 2 ^ (8 * w - 1) := by
      conv_lhs => rw [show 8 * w = (8 * w - 1) + 1 by omega]
      rw [pow_succ]
      ring
    rw [h1]
    push_cast
    ring
  have hmod : i % ((2 ^ (8 * w) : Nat) : Int) =
      if 0 ≤ i then i else i + ((2 ^ (8 * w) : Nat) : Int) := by
    by_cases h0 : 0 ≤ i
    · rw [if_pos h0]
      apply Int.emod_eq_of_lt h0
      omega
    · rw [if_neg h0]
      have h1 : i % ((2 ^ (8 * w) : Nat) : Int)
          = (i + ((2 ^ (8 * w) : Nat) : Int)) % ((2 ^ (8 * w) : Nat) : Int) := by
        conv_rhs =>
          rw [show i + ((2 ^ (8 * w) : Nat) : Int)
            = i + ((2 ^ (8 * w) : Nat) : Int) * 1 by ring]
        rw [Int.add_mul_emod_self_left]
      rw [h1]
      apply Int.emod_eq_of_lt <;> omega
  refine ⟨(i % ((2 ^ (8 * w) : Nat) : Int)).toNat, rfl, ?_, ?_⟩
  · rw [hmod]
    by_cases h0 : 0 ≤ i
    · rw [if_pos h0]; omega
    · rw [if_neg h0]; omega
  · unfold twosVal
    rw [hmod]
    by_cases h0 : 0 ≤ i
    · rw [if_pos h0]
      rw [if_pos (by omega)]
      omega
    · rw [if_neg h0]
      rw [if_neg (by omega)]
      omega

/-! ## Primitive round-trip and buffer-extension lemmas -/

theorem decodeUInt_ok (w : Nat) (v : JsValue) (m : Nat)
    (h : decodeUInt w v = .ok m) : v = .num m ∧ m < 2 ^ w := by
  cases v <;> simp only [decodeUInt] at h <;> try cases h
  case num n =>
    split at h
    · cases h
      rename_i hc
      constructor
      · congr 1
        omega
      · omega
    · cases h

theorem decodeSInt_ok (w : Nat) (v : JsValue) (i : Int)
    (h : decodeSInt w v = .ok i) :
    v = .num i ∧ -((2 ^ (w - 1) : Nat) : Int) ≤ i ∧ i < ((2 ^ (w - 1) : Nat) : Int) := by
  cases v <;> simp only [decodeSInt] at h <;> try cases h
  case num n =>
    split at h
    · cases h
      rename_i hc
      exact ⟨rfl, hc.1, hc.2⟩
    · cases h

theorem uintRT (w bytes : Nat) (hwb : 8 * bytes = w) (v : JsValue)
    (out rest : List Nat) (h : (decodeUInt w v).map (leEnc bytes) = .ok out) :
    (match leDec bytes (out ++ rest) with
     | some (n, r) => (.ok (.num n, r) : Except String (JsValue × List Nat))
     | none => .error eobMsg) = .ok (v, rest) := by
  cases hd : decodeUInt w v with
  | error e => rw [hd] at h; simp [Except.map] at h
  | ok m =>
    rw [hd] at h
    simp only [Except.map] at h
    cases h
    obtain ⟨hv, hm⟩ := decodeUInt_ok w v m hd
    rw [leDec_leEnc bytes m rest (by rw [hwb]; exact hm), hv]

theorem sintRT (w bytes : Nat) (hwb : 8 * bytes = w) (hb : 0 < bytes)
    (v : JsValue) (out rest : List Nat)
    (h : (decodeSInt w v).map (twosEnc bytes) = .ok out) :
    (match leDec bytes (out ++ rest) with
     | some (n, r) => (.ok (.num (twosVal bytes n), r) : Except String (JsValue × List Nat))
     | none => .error eobMsg) = .ok (v, rest) := by
  cases hd : decodeSInt w v with
  | error e => rw [hd] at h; simp [Except.map] at h
  | ok i =>
    rw [hd] at h
    simp only [Except.map] at h
    cases h
    obtain ⟨hv, hlo, hhi⟩ := decodeSInt_ok w v i hd
    have hw1 : 8 * bytes - 1 = w - 1 := by omega
    obtain ⟨n, hn, hnlt, hval⟩ := twosVal_twosEnc bytes i hb
      (by rw [hw1]; exact hlo) (by rw [hw1]; exact hhi)
    unfold twosEnc
    rw [hn, leDec_leEnc bytes n rest hnlt]
    simp only [hval, hv]

theorem compactRT (w : Nat) (hw : 8 ∣ w) (v : JsValue)
    (out rest : List Nat) (h : (decodeUInt w v).map compactEnc = .ok out) :
    (match compactDec w (out ++ rest) with
     | some (n, r) => (.ok (.num n, r) : Except String (JsValue × List Nat))
     | none => .error eobMsg) = .ok (v, rest) := by
  cases hd : decodeUInt w v with
  | error e => rw [hd] at h; simp [Except.map] at h
  | ok m =>
    rw [hd] at h
    simp only [Except.map] at h
    cases h
    obtain ⟨hv, hm⟩ := decodeUInt_ok w v m hd
    rw [compactDec_compactEnc w m rest hw hm, hv]

theorem decodePrim_encodePrim (v : JsValue) (p : PrimitiveType)
    (out rest : List Nat) (hs : smallVal v = true)
    (h : encodePrimitive v p = .ok out) :
    decodePrimitive p (out ++ rest) = .ok (v, rest) := by
  cases p <;> simp only [encodePrimitive] at h <;> simp only [decodePrimitive]
  case u8 => exact uintRT 8 1 (by norm_num) v out rest h
  case u16 => exact uintRT 16 2 (by norm_num) v out rest h
  case u32 => exact uintRT 32 4 (by norm_num) v out rest h
  case u64 => exact uintRT 64 8 (by norm_num) v out rest h
  case u128 => exact uintRT 128 16 (by norm_num) v out rest h
  case i8 => exact sintRT 8 1 (by norm_num) (by norm_num) v out rest h
  case i16 => exact sintRT 16 2 (by norm_num) (by norm_num) v out rest h
  case i32 => exact sintRT 32 4 (by norm_num) (by norm_num) v out rest h
  case i64 => exact sintRT 64 8 (by norm_num) (by norm_num) v out rest h
  case i128 => exact sintRT 128 16 (by norm_num) (by norm_num) v out rest h
  case bool =>
    cases hd : decodeBool v with
    | error e => rw [hd] at h; simp [Except.map] at h
    | ok b =>
      rw [hd] at h
      simp only [Except.map] at h
      cases h
      have hv : v = .bool b := by
        cases v <;> simp only [decodeBool] at hd <;> try cases hd
        rfl
      cases b <;> simp [hv]
  case str =>
    cases hd : asString v with
    | error e => rw [hd] at h; simp [Except.map] at h
    | ok s =>
      rw [hd] at h
      simp only [Except.map] at h
      cases h
      have hv : v = .str s := by
        cases v <;> simp only [asString] at hd <;> try cases hd
        rfl
      subst hv
      have hsl : s.length < 2 ^ 32 := by
        simp only [smallVal, decide_eq_true_eq] at hs
        exact hs
      unfold sliceEnc
      rw [List.append_assoc, compactDec_compactEnc 32 s.length (s ++ rest)
        (by norm_num) hsl]
      simp only
      rw [if_pos (by simp)]
      rw [List.take_left, List.drop_left]

theorem decodeCompactPrim_enc (v : JsValue) (p : PrimitiveType)
    (out rest : List Nat) (h : encodeCompactPrim v p = .ok out) :
    decodeCompactPrim p (out ++ rest) = .ok (v, rest) := by
  cases p <;> simp only [encodeCompactPrim] at h <;> simp only [decodeCompactPrim] <;>
    try cases h
  case u8 => exact compactRT 8 (by norm_num) v out rest h
  case u16 => exact compactRT 16 (by norm_num) v out rest h
  case u32 => exact compactRT 32 (by norm_num) v out rest h
  case u64 => exact compactRT 64 (by norm_num) v out rest h
  case u128 => exact compactRT 128 (by norm_num) v out rest h

theorem decMatchExtend (dec : List Nat → Option (Nat × List Nat))
    (hext : ∀ buf extra n r, dec buf = some (n, r) →
      dec (buf ++ extra) = some (n, r ++ extra))
    (f : Nat → JsValue) (buf extra : List Nat) (v : JsValue) (r : List Nat)
    (h : (match dec buf with
          | some (n, r) => (.ok (f n, r) : Except String (JsValue × List Nat))
          | none => .error eobMsg) = .ok (v, r)) :
    (match dec (buf ++ extra) with
     | some (n, r) => (.ok (f n, r) : Except String (JsValue × List Nat))
     | none => .error eobMsg) = .ok (v, r ++ extra) := by
  cases hd : dec buf with
  | none => rw [hd] at h; cases h
  | some p =>
    obtain ⟨n, r'⟩ := p
    rw [hd] at h
    simp only at h
    cases h
    rw [hext buf extra n r hd]

theorem decodePrim_extend (p : PrimitiveType) (buf extra : List Nat)
    (v : JsValue) (r : List Nat) (h : decodePrimitive p buf = .ok (v, r)) :
    decodePrimitive p (buf ++ extra) = .ok (v, r ++ extra) := by
  cases p <;> simp only [decodePrimitive] at h ⊢
  case u8 => exact decMatchExtend (leDec 1) (leDec_extend 1) _ buf extra v r h
  case u16 => exact decMatchExtend (leDec 2) (leDec_extend 2) _ buf extra v r h
  case u32 => exact decMatchExtend (leDec 4) (leDec_extend 4) _ buf extra v r h
  case u64 => exact decMatchExtend (leDec 8) (leDec_extend 8) _ buf extra v r h
  case u128 => exact decMatchExtend (leDec 16) (leDec_extend 16) _ buf extra v r h
  case i8 => exact decMatchExtend (leDec 1) (leDec_extend 1) _ buf extra v r h
  case i16 => exact decMatchExtend (leDec 2) (leDec_extend 2) _ buf extra v r h
  case i32 => exact decMatchExtend (leDec 4) (leDec_extend 4) _ buf extra v r h
  case i64 => exact decMatchExtend (leDec 8) (leDec_extend 8) _ buf extra v r h
  case i128 => exact decMatchExtend (leDec 16) (leDec_extend 16) _ buf extra v r h
  case bool =>
    match buf with
    | [] => cases h
    | 0 :: bs =>
      cases h
      rfl
    | 1 :: bs =>
      cases h
      rfl
    | (b + 2) :: bs => cases h
  case str =>
    cases hd : compactDec 32 buf with
    | none => rw [hd] at h; cases h
    | some p =>
      obtain ⟨len, r1⟩ := p
      rw [hd] at h
      simp only at h
      split at h
      · cases h
        rename_i hle
        rw [compactDec_extend 32 buf extra len r1 hd]
        simp only
        rw [if_pos (by simp; omega)]
        rw [List.take_append_of_le_length hle, List.drop_append_of_le_length hle]
      · cases h

theorem decodeCompactPrim_extend (p : PrimitiveType) (buf extra : List Nat)
    (v : JsValue) (r : List Nat) (h : decodeCompactPrim p buf = .ok (v, r)) :
    decodeCompactPrim p (buf ++ extra) = .ok (v, r ++ extra) := by
  cases p <;> simp only [decodeCompactPrim] at h ⊢ <;> try cases h
  case u8 => exact decMatchExtend (compactDec 8) (compactDec_extend 8) _ buf extra v r h
  case u16 => exact decMatchExtend (compactDec 16) (compactDec_extend 16) _ buf extra v r h
  case u32 => exact decMatchExtend (compactDec 32) (compactDec_extend 32) _ buf extra v r h
  case u64 => exact decMatchExtend (compactDec 64) (compactDec_extend 64) _ buf extra v r h
  case u128 => exact decMatchExtend (compactDec 128) (compactDec_extend 128) _ buf extra v r h

/-! ## Supporting lemmas for the round-trip theorem -/

theorem get_type_fuel_mono (n : Nat) (r : Registry) (tid : Id)
    (x : Except String Ty) (h : Registry.get_type_fuel n r tid = some x) :
    Registry.get_type_fuel (n + 1) r tid = some x := by
  induction n generalizing tid with
  | zero => simp [Registry.get_type_fuel] at h
  | succ n ih =>
    simp only [Registry.get_type_fuel] at h ⊢
    cases hs : r.get_type_shallow tid with
    | error e => rw [hs] at h; exact h
    | ok t =>
      rw [hs] at h
      cases t <;> try exact h
      rename_i id
      exact ih id h

theorem smallValList_mem (xs : List JsValue) (h : smallValList xs = true) :
    ∀ x ∈ xs, smallVal x = true := by
  induction xs with
  | nil => intro x hx; cases hx
  | cons y ys ih =>
    intro x hx
    simp only [smallValList, Bool.and_eq_true] at h
    cases hx with
    | head => exact h.1
    | tail _ hmem => exact ih h.2 x hmem

theorem smallValFields_mem (fs : List (String × JsValue))
    (h : smallValFields fs = true) : ∀ f ∈ fs, smallVal f.2 = true := by
  induction fs with
  | nil => intro f hf; cases hf
  | cons g gs ih =>
    intro f hf
    obtain ⟨k, v⟩ := g
    simp only [smallValFields, Bool.and_eq_true] at h
    cases hf with
    | head => exact h.1
    | tail _ hmem => exact ih h.2 f hmem

theorem smallVal_indexAt (v : JsValue) (i : Nat) (h : smallVal v = true) :
    smallVal (indexAt v i) = true := by
  cases v <;> simp only [indexAt, smallVal]
  case arr xs =>
    by_cases hi : i < xs.length
    · have hmem : xs.getD i .undefined ∈ xs := by
        rw [List.getD_eq_getElem xs .undefined hi]
        exact List.getElem_mem hi
      exact smallValList_mem xs (by simpa [smallVal] using h) _ hmem
    · rw [List.getD_eq_default xs .undefined (by omega)]
      rfl

theorem smallVal_getProp (v : JsValue) (k : String) (h : smallVal v = true) :
    smallVal (getProp v k) = true := by
  cases v <;> simp only [getProp, smallVal]
  case obj fs =>
    cases hf : fs.find? (fun f => f.1 = k) with
    | none => rfl
    | some f =>
      have hmem : f ∈ fs := List.mem_of_find?_eq_some hf
      exact smallValFields_mem fs (by simpa [smallVal] using h) f hmem
  case arr xs => split <;> rfl
  case bytes b => split <;> rfl
  case str s => split <;> rfl

theorem hexPairs_len : ∀ (l bs : List Nat), hexPairs l = some bs →
    l.length = 2 * bs.length
  | [], bs, h => by
    simp only [hexPairs] at h
    cases h
    rfl
  | [c], bs, h => by
    simp only [hexPairs] at h
    cases h
  | c1 :: c2 :: rest, bs, h => by
    simp only [hexPairs] at h
    cases h1 : hexDigit? c1 <;> rw [h1] at h
    case none => cases h
    case some d1 =>
      cases h2 : hexDigit? c2 <;> rw [h2] at h
      case none => cases h
      case some d2 =>
        cases h3 : hexPairs rest with
        | none => rw [h3] at h; cases h
        | some bs' =>
          rw [h3] at h
          simp only at h
          cases h
          have := hexPairs_len rest bs' h3
          simp only [List.length_cons]
          omega

theorem hexToBytes_len_le (s bs : List Nat) (h : hexToBytes s = some bs) :
    bs.length ≤ s.length := by
  unfold hexToBytes at h
  split at h
  · rename_i rest
    have := hexPairs_len rest bs h
    simp only [List.length_cons]
    omega
  · have := hexPairs_len s bs h
    omega

theorem u8aOrHex_small (v : JsValue) (bs : List Nat) (hs : smallVal v = true)
    (h : u8aOrHex v = some (.ok bs)) : bs.length < 2 ^ 32 := by
  cases v
  case bytes b =>
    simp only [u8aOrHex] at h
    obtain rfl : b = bs := by simpa using h
    simpa [smallVal] using hs
  case str s =>
    simp only [u8aOrHex] at h
    cases hh : hexToBytes s with
    | none => rw [hh] at h; cases h
    | some b2 =>
      rw [hh] at h
      obtain rfl : b2 = bs := by simpa using h
      have hsl : s.length < 2 ^ 32 := by simpa [smallVal] using hs
      have := hexToBytes_len_le s b2 hh
      omega
  all_goals simp only [u8aOrHex] at h
  all_goals cases h

theorem scanExplicitIdx_spec (tag : Nat) :
    ∀ (vs : List (String × Option Id × Option Nat)) (i j : Nat),
    scanExplicitIdx tag i vs = some j →
    i ≤ j ∧ ∃ name ty, vs[j - i]? = some (name, ty, some tag) ∧
      scanExplicit tag vs = .ok (name, ty) := by
  intro vs
  induction vs with
  | nil => intro i j h; simp [scanExplicitIdx] at h
  | cons hd rest ih =>
    intro i j h
    obtain ⟨n0, ty0, e0⟩ := hd
    cases e0 with
    | some ind =>
      simp only [scanExplicitIdx] at h
      by_cases htag : tag = ind
      · rw [if_pos htag] at h
        cases h
        refine ⟨le_refl i, n0, ty0, ?_, ?_⟩
        · simp [htag]
        · simp [scanExplicit, if_pos htag]
      · rw [if_neg htag] at h
        obtain ⟨hle, name, ty, hidx, hscan⟩ := ih (i + 1) j h
        refine ⟨by omega, name, ty, ?_, ?_⟩
        · rw [show j - i = (j - (i + 1)) + 1 by omega]
          simpa using hidx
        · simp [scanExplicit, if_neg htag, hscan]
    | none =>
      simp only [scanExplicitIdx] at h
      obtain ⟨hle, name, ty, hidx, hscan⟩ := ih (i + 1) j h
      refine ⟨by omega, name, ty, ?_, ?_⟩
      · rw [show j - i = (j - (i + 1)) + 1 by omega]
        simpa using hidx
      · simp [scanExplicit, hscan]

theorem tagIndex_spec (vs : List (String × Option Id × Option Nat)) (tag j : Nat)
    (h : tagIndex vs tag = some j) :
    ∃ name ty e, vs[j]? = some (name, ty, e) ∧
      getVariantByIndex vs tag = .ok (name, ty) := by
  unfold tagIndex at h
  cases hvt : vs[tag]? with
  | none =>
    rw [hvt] at h
    obtain ⟨-, name, ty, hidx, hscan⟩ := scanExplicitIdx_spec tag vs 0 j h
    exact ⟨name, ty, some tag, by simpa using hidx,
      by simp [getVariantByIndex, hvt, hscan]⟩
  | some entry =>
    obtain ⟨n0, ty0, e0⟩ := entry
    rw [hvt] at h
    cases e0 with
    | none =>
      simp only at h
      cases h
      exact ⟨n0, ty0, none, hvt, by simp [getVariantByIndex, hvt]⟩
    | some ind =>
      simp only at h
      by_cases htag : tag = ind
      · rw [if_pos htag] at h
        cases h
        exact ⟨n0, ty0, some ind, hvt, by simp [getVariantByIndex, hvt, if_pos htag]⟩
      · rw [if_neg htag] at h
        obtain ⟨-, name, ty, hidx, hscan⟩ := scanExplicitIdx_spec tag vs 0 j h
        exact ⟨name, ty, some tag, by simpa using hidx,
          by simp [getVariantByIndex, hvt, if_neg htag, hscan]⟩

theorem enumFaithful_spec (vs : List (String × Option Id × Option Nat))
    (h : enumFaithful vs = true) (j : Nat) (name : String) (ty : Option Id)
    (e : Option Nat) (hj : vs[j]? = some (name, ty, e)) :
    getVariantByIndex vs (e.getD j) = .ok (name, ty) := by
  have hlt : j < vs.length := by
    by_contra hc
    rw [List.getElem?_eq_none (by omega)] at hj
    cases hj
  have hall := List.all_eq_true.mp h j (by simpa using List.mem_range.mpr hlt)
  rw [hj] at hall
  simp only [beq_iff_eq] at hall
  obtain ⟨name', ty', e', hj', hbi⟩ := tagIndex_spec vs (e.getD j) j hall
  rw [hj] at hj'
  cases hj'
  exact hbi

theorem variantByNameFrom_spec (name : String) :
    ∀ (vs : List (String × Option Id × Option Nat)) (i : Nat) (vn : String)
      (ty : Option Id) (d : Nat),
    variantByNameFrom name i vs = .ok (vn, ty, d) →
    vn = name ∧ ∃ (k : Nat) (e : Option Nat),
      vs[k]? = some (vn, ty, e) ∧ d = e.getD (i + k) := by
  intro vs
  induction vs with
  | nil => intro i vn ty d h; simp [variantByNameFrom] at h
  | cons hd rest ih =>
    intro i vn ty d h
    obtain ⟨n0, ty0, e0⟩ := hd
    simp only [variantByNameFrom] at h
    by_cases hn : n0 = name
    · rw [if_pos hn] at h
      simp only [Except.ok.injEq, Prod.mk.injEq] at h
      obtain ⟨rfl, rfl, rfl⟩ := h
      exact ⟨hn, 0, e0, by simp, by rw [Nat.add_zero]⟩
    · rw [if_neg hn] at h
      obtain ⟨hvn, k, e, hk, hd2⟩ := ih (i + 1) vn ty d h
      refine ⟨hvn, k + 1, e, by simpa [List.getElem?_cons_succ] using hk,
        by rw [hd2]; congr 1; omega⟩

theorem encIdxLoop_rt (fuel : Nat) (r : Registry) (tid : Id) (v : JsValue)
    (ih : EncOk fuel) (hsv : smallVal v = true)
    (hf : faithReachF fuel r tid = true) :
    ∀ (count i : Nat) (out rest : List Nat),
    encIdxLoop (fun a b => encodeF fuel r a b) tid v i count = some (.ok out) →
    ∃ cs, canIdxLoop (fun a b => canonF fuel r a b) tid v i count = some (.ok cs) ∧
      decIdxLoop (fun a b => decodeF fuel r a b) tid count (out ++ rest) =
        some (.ok (cs, rest)) := by
  intro count
  induction count with
  | zero =>
    intro i out rest h
    simp only [encIdxLoop] at h
    cases h
    exact ⟨[], rfl, by simp [decIdxLoop]⟩
  | succ count ihc =>
    intro i out rest h
    simp only [encIdxLoop] at h
    cases he : encodeF fuel r tid (indexAt v i) with
    | none => rw [he] at h; cases h
    | some res =>
      rw [he] at h
      cases res with
      | error e => cases h
      | ok bs =>
        cases hrest : encIdxLoop (fun a b => encodeF fuel r a b) tid v (i + 1) count with
        | none => rw [hrest] at h; cases h
        | some res2 =>
          rw [hrest] at h
          cases res2 with
          | error e => cases h
          | ok tailOut =>
            simp only at h
            cases h
            obtain ⟨c, hcan, hdec⟩ := ih r tid (indexAt v i) bs (tailOut ++ rest)
              (smallVal_indexAt v i hsv) hf he
            obtain ⟨cs, hcans, hdecs⟩ := ihc (i + 1) tailOut rest hrest
            refine ⟨c :: cs, ?_, ?_⟩
            · simp only [canIdxLoop, hcan, hcans]
            · simp only [decIdxLoop, List.append_assoc, hdec, hdecs]

theorem encTupleLoop_rt (fuel : Nat) (r : Registry) (v : JsValue)
    (ih : EncOk fuel) (hsv : smallVal v = true) :
    ∀ (ids : List Id) (i : Nat) (out rest : List Nat),
    (∀ id ∈ ids, faithReachF fuel r id = true) →
    encTupleLoop (fun a b => encodeF fuel r a b) v ids i = some (.ok out) →
    ∃ cs, canTupleLoop (fun a b => canonF fuel r a b) v ids i = some (.ok cs) ∧
      decTupleLoop (fun a b => decodeF fuel r a b) ids (out ++ rest) =
        some (.ok (cs, rest)) := by
  intro ids
  induction ids with
  | nil =>
    intro i out rest _ h
    simp only [encTupleLoop] at h
    cases h
    exact ⟨[], rfl, by simp [decTupleLoop]⟩
  | cons tid tids ihc =>
    intro i out rest hfl h
    simp only [encTupleLoop] at h
    cases he : encodeF fuel r tid (indexAt v i) with
    | none => rw [he] at h; cases h
    | some res =>
      rw [he] at h
      cases res with
      | error e => cases h
      | ok bs =>
        cases hrest : encTupleLoop (fun a b => encodeF fuel r a b) v tids (i + 1) with
        | none => rw [hrest] at h; cases h
        | some res2 =>
          rw [hrest] at h
          cases res2 with
          | error e => cases h
          | ok tailOut =>
            simp only at h
            cases h
            obtain ⟨c, hcan, hdec⟩ := ih r tid (indexAt v i) bs (tailOut ++ rest)
              (smallVal_indexAt v i hsv) (hfl tid (by simp)) he
            obtain ⟨cs, hcans, hdecs⟩ := ihc (i + 1) tailOut rest
              (fun id hid => hfl id (by simp [hid])) hrest
            refine ⟨c :: cs, ?_, ?_⟩
            · simp only [canTupleLoop, hcan, hcans]
            · simp only [decTupleLoop, List.append_assoc, hdec, hdecs]

theorem encStructLoop_rt (fuel : Nat) (r : Registry) (v : JsValue)
    (ih : EncOk fuel) (hsv : smallVal v = true) :
    ∀ (fields : List (String × Id)) (acc : List (String × JsValue))
      (out rest : List Nat),
    (∀ f ∈ fields, faithReachF fuel r f.2 = true) →
    encStructLoop (fun a b => encodeF fuel r a b) v fields = some (.ok out) →
    ∃ fs, canStructLoop (fun a b => canonF fuel r a b) v fields acc = some (.ok fs) ∧
      decStructLoop (fun a b => decodeF fuel r a b) fields (out ++ rest) acc =
        some (.ok (fs, rest)) := by
  intro fields
  induction fields with
  | nil =>
    intro acc out rest _ h
    simp only [encStructLoop] at h
    cases h
    exact ⟨acc, rfl, by simp [decStructLoop]⟩
  | cons fld flds ihc =>
    intro acc out rest hfl h
    obtain ⟨name, tid⟩ := fld
    simp only [encStructLoop] at h
    cases he : encodeF fuel r tid (getProp v name) with
    | none => rw [he] at h; cases h
    | some res =>
      rw [he] at h
      cases res with
      | error e => cases h
      | ok bs =>
        cases hrest : encStructLoop (fun a b => encodeF fuel r a b) v flds with
        | none => rw [hrest] at h; cases h
        | some res2 =>
          rw [hrest] at h
          cases res2 with
          | error e => cases h
          | ok tailOut =>
            simp only at h
            cases h
            obtain ⟨c, hcan, hdec⟩ := ih r tid (getProp v name) bs (tailOut ++ rest)
              (smallVal_getProp v name hsv) (hfl (name, tid) (by simp)) he
            obtain ⟨fs, hcans, hdecs⟩ := ihc (objSet acc name c) tailOut rest
              (fun f hf => hfl f (by simp [hf])) hrest
            refine ⟨fs, ?_, ?_⟩
            · simp only [canStructLoop, hcan, hcans]
            · simp only [decStructLoop, List.append_assoc, hdec, hdecs]

theorem encEnumLoop_rt (fuel : Nat) (r : Registry)
    (vs : List (String × Option Id × Option Nat)) (ih : EncOk fuel)
    (hfe : enumFaithful vs = true)
    (hfp : ∀ variant ∈ vs, ∀ id, variant.2.1 = some id →
      faithReachF fuel r id = true) :
    ∀ (entries : List (String × JsValue)) (out rest : List Nat),
    (∀ kv ∈ entries, smallVal kv.2 = true) →
    encEnumLoop (fun a b => encodeF fuel r a b) vs entries = some (.ok out) →
    ∃ (d : Nat) (name : String) (tyOpt : Option Id) (payload : List Nat)
      (c : JsValue),
      out = d :: payload ∧
      getVariantByIndex vs d = .ok (name, tyOpt) ∧
      canEnumLoop (fun a b => canonF fuel r a b) vs entries = some (.ok c) ∧
      ((tyOpt = none ∧ payload = [] ∧ c = .obj [(name, .null)]) ∨
       (∃ ty pc, tyOpt = some ty ∧ c = .obj [(name, pc)] ∧
         decodeF fuel r ty (payload ++ rest) = some (.ok (pc, rest)))) := by
  intro entries
  induction entries with
  | nil =>
    intro out rest _ h
    simp only [encEnumLoop] at h
    cases h
  | cons entry entries ihe =>
    intro out rest hsmall h
    obtain ⟨k, pv⟩ := entry
    simp only [encEnumLoop] at h
    cases hbn : getVariantByName vs k with
    | error e =>
      rw [hbn] at h
      obtain ⟨d, name, tyOpt, payload, c, h1, h2, h3, h4⟩ :=
        ihe out rest (fun kv hkv => hsmall kv (by simp [hkv])) h
      exact ⟨d, name, tyOpt, payload, c, h1, h2, by
        simp only [canEnumLoop, hbn]; exact h3, h4⟩
    | ok res =>
      rw [hbn] at h
      obtain ⟨vn, tyOpt, d⟩ := res
      obtain ⟨hvnk, kk, e, hkk, hdisc⟩ :=
        variantByNameFrom_spec k vs 0 vn tyOpt d hbn
      have hbi : getVariantByIndex vs d = .ok (vn, tyOpt) := by
        rw [hdisc, Nat.zero_add]
        exact enumFaithful_spec vs hfe kk vn tyOpt e hkk
      simp only at h
      by_cases hd : d < 256
      · rw [if_pos hd] at h
        cases tyOpt with
        | none =>
          simp only at h
          cases h
          refine ⟨d, vn, none, [], .obj [(vn, .null)], rfl, hbi, ?_, ?_⟩
          · simp only [canEnumLoop, hbn, if_pos hd]
          · exact Or.inl ⟨rfl, rfl, rfl⟩
        | some ty =>
          simp only at h
          cases hpe : encodeF fuel r ty pv with
          | none => rw [hpe] at h; cases h
          | some res2 =>
            rw [hpe] at h
            cases res2 with
            | error e2 => cases h
            | ok bs =>
              simp only at h
              cases h
              have hmem : (vn, some ty, e) ∈ vs := by
                rcases List.getElem?_eq_some.mp hkk with ⟨hlt2, hget⟩
                exact hget ▸ List.getElem_mem hlt2
              obtain ⟨pc, hcan, hdec⟩ := ih r ty pv bs rest
                (hsmall (k, pv) (by simp)) (hfp (vn, some ty, e) (by
                  simpa using hmem) ty rfl) hpe
              refine ⟨d, vn, some ty, bs, .obj [(vn, pc)], rfl, hbi, ?_, ?_⟩
              · simp only [canEnumLoop, hbn, if_pos hd, hcan]
              · exact Or.inr ⟨ty, pc, rfl, rfl, hdec⟩
      · rw [if_neg hd] at h
        cases h

theorem encodeF_u8_elem (fuel : Nat) (r : Registry) (tid2 : Id) (x : JsValue)
    (bs : List Nat)
    (hres : Registry.get_type_fuel fuel r tid2 = none ∨
      Registry.get_type_fuel fuel r tid2 = some (.ok (.primitive .u8)))
    (h : encodeF fuel r tid2 x = some (.ok bs)) :
    ∃ m, decodeUInt 8 x = .ok m ∧ bs = [m] ∧ m < 256 := by
  match fuel with
  | 0 => simp [encodeF] at h
  | fuel + 1 =>
    cases hres with
    | inl hnone =>
      simp only [encodeF, Registry.resolve_type_fuel, hnone] at h
      cases h
    | inr hu8 =>
      simp only [encodeF, Registry.resolve_type_fuel, hu8] at h
      cases hd : decodeUInt 8 x with
      | error e => simp [encodePrimitive, hd, Except.map] at h
      | ok m =>
        simp only [encodePrimitive, hd, Except.map] at h
        cases h
        obtain ⟨-, hm⟩ := decodeUInt_ok 8 x m hd
        refine ⟨m, rfl, ?_, by omega⟩
        simp only [leEnc]
        norm_num at hm ⊢
        omega

theorem encIdxLoopU8_rt (fuel : Nat) (r : Registry) (tid2 : Id) (v : JsValue)
    (hres : Registry.get_type_fuel fuel r tid2 = none ∨
      Registry.get_type_fuel fuel r tid2 = some (.ok (.primitive .u8))) :
    ∀ (count i : Nat) (out : List Nat),
    encIdxLoop (fun a b => encodeF fuel r a b) tid2 v i count = some (.ok out) →
    canByteLoop v i count = .ok out ∧ out.length = count := by
  intro count
  induction count with
  | zero =>
    intro i out h
    simp only [encIdxLoop] at h
    cases h
    exact ⟨rfl, rfl⟩
  | succ count ihc =>
    intro i out h
    simp only [encIdxLoop] at h
    cases he : encodeF fuel r tid2 (indexAt v i) with
    | none => rw [he] at h; cases h
    | some res =>
      rw [he] at h
      cases res with
      | error e => cases h
      | ok bs =>
        cases hrest : encIdxLoop (fun a b => encodeF fuel r a b) tid2 v (i + 1) count with
        | none => rw [hrest] at h; cases h
        | some res2 =>
          rw [hrest] at h
          cases res2 with
          | error e => cases h
          | ok tailOut =>
            simp only at h
            cases h
            obtain ⟨m, hm, hbs, hmlt⟩ := encodeF_u8_elem fuel r tid2 (indexAt v i) bs hres he
            obtain ⟨hcb, hlen⟩ := ihc (i + 1) tailOut hrest
            subst hbs
            refine ⟨?_, by simp [hlen]⟩
            simp only [canByteLoop, hm, hcb]
            rfl

theorem Ty.isU8_eq (t : Ty) (h : t.isU8 = true) : t = .primitive .u8 := by
  cases t <;> simp only [Ty.isU8] at h <;> try cases h
  case primitive p =>
    cases p <;> simp only [Ty.isU8] at h <;> try rfl
    all_goals cases h

theorem resolve_false_eq_get (n : Nat) (r : Registry) (tid : Id) :
    Registry.resolve_type_fuel n r tid false = Registry.get_type_fuel n r tid := by
  simp only [Registry.resolve_type_fuel]
  cases h : Registry.get_type_fuel n r tid with
  | none => rfl
  | some x => cases x <;> rfl

theorem get_fuel_lower (fuel : Nat) (r : Registry) (tid2 : Id) (t2 : Ty)
    (h : Registry.get_type_fuel (fuel + 1) r tid2 = some (.ok t2)) :
    Registry.get_type_fuel fuel r tid2 = none ∨
    Registry.get_type_fuel fuel r tid2 = some (.ok t2) := by
  cases hg : Registry.get_type_fuel fuel r tid2 with
  | none => exact Or.inl rfl
  | some x =>
    have hmono := get_type_fuel_mono fuel r tid2 x hg
    have hx : x = .ok t2 := Option.some.inj (hmono.symm.trans h)
    subst hx
    exact Or.inr rfl

theorem u8FastDecode (bs rest : List Nat) (hlen : bs.length < 2 ^ 32) :
    (match compactDec 32 (sliceEnc bs ++ rest) with
     | none => (some (.error eobMsg) : Option (Except String (JsValue × List Nat)))
     | some (len, r1) =>
       if len ≤ r1.length then some (.ok (.bytes (r1.take len), r1.drop len))
       else some (.error eobMsg)) = some (.ok (.bytes bs, rest)) := by
  unfold sliceEnc
  rw [List.append_assoc, compactDec_compactEnc 32 bs.length (bs ++ rest) (by norm_num) hlen]
  simp only
  rw [if_pos (by simp)]
  rw [List.take_left, List.drop_left]

theorem u8ArrFastDecode (bs rest : List Nat) (len : Nat) (hl : bs.length = len) :
    (if len ≤ (bs ++ rest).length then
      (some (.ok (.bytes ((bs ++ rest).take len), (bs ++ rest).drop len)) :
        Option (Except String (JsValue × List Nat)))
     else some (.error eobMsg)) = some (.ok (.bytes bs, rest)) := by
  subst hl
  rw [if_pos (by simp)]
  rw [List.take_left, List.drop_left]

theorem encOk_all : ∀ fuel, EncOk fuel := by
  intro fuel
  induction fuel with
  | zero =>
    intro r tid v out rest _ _ henc
    simp [encodeF] at henc
  | succ fuel ih =>
    intro r tid v out rest hsv hfaith henc
    simp only [encodeF] at henc
    cases hres : Registry.resolve_type_fuel (fuel + 1) r tid true with
    | none => rw [hres] at henc; cases henc
    | some res =>
      rw [hres] at henc
      cases res with
      | error e => cases henc
      | ok t =>
        have hft : faithTyF (fun tid2 => faithReachF fuel r tid2) t = true := by
          have := hfaith
          simp only [faithReachF, hres] at this
          exact this
        cases t
        -- primitive
        case primitive p =>
          simp only at henc
          cases hp : encodePrimitive v p with
          | error e => rw [hp] at henc; cases henc
          | ok bs =>
            rw [hp] at henc
            simp only at henc
            cases henc
            refine ⟨v, ?_, ?_⟩
            · simp only [canonF, hres, hp]
            · simp only [decodeF, hres,
                decodePrim_encodePrim v p out rest hsv hp]
        -- compact
        case compact tid2 =>
          simp only at henc
          cases hres2 : Registry.resolve_type_fuel (fuel + 1) r tid2 false with
          | none => rw [hres2] at henc; cases henc
          | some res2 =>
            rw [hres2] at henc
            cases res2 with
            | error e => simp only at henc; cases henc
            | ok t2 =>
              cases t2
              case primitive p =>
                simp only at henc
                cases hcp : encodeCompactPrim v p with
                | error e => rw [hcp] at henc; cases henc
                | ok bs =>
                  rw [hcp] at henc
                  simp only at henc
                  cases henc
                  refine ⟨v, ?_, ?_⟩
                  · simp only [canonF, hres, hres2, hcp]
                  · simp only [decodeF, hres, hres2,
                      decodeCompactPrim_enc v p out rest hcp]
              case compact i => simp only at henc; cases henc
              case seq i => simp only at henc; cases henc
              case tuple ids =>
                cases ids with
                | nil =>
                  simp only at henc
                  cases henc
                  refine ⟨.arr [], ?_, ?_⟩
                  · simp only [canonF, hres, hres2]
                  · simp only [decodeF, hres, hres2, List.nil_append]
                | cons i is => simp only at henc; cases henc
              case array i l => simp only at henc; cases henc
              case enum vs => simp only at henc; cases henc
              case struct fs => simp only at henc; cases henc
              case «alias» i => simp only at henc; cases henc
        -- seq
        case seq tid2 =>
          simp only at henc
          cases hres2 : Registry.resolve_type_fuel (fuel + 1) r tid2 false with
          | none => rw [hres2] at henc; cases henc
          | some res2 =>
            rw [hres2] at henc
            cases res2 with
            | error e => simp only at henc; cases henc
            | ok t2 =>
              simp only at henc
              have hf2 : faithReachF fuel r tid2 = true := by
                simpa only [faithTyF] using hft
              by_cases hu8 : t2.isU8 = true
              · rw [if_pos hu8] at henc
                cases hx : u8aOrHex v with
                | some resx =>
                  rw [hx] at henc
                  cases resx with
                  | error e => simp only at henc; cases henc
                  | ok bs =>
                    simp only at henc
                    cases henc
                    refine ⟨.bytes bs, ?_, ?_⟩
                    · simp only [canonF, hres, hres2, if_pos hu8, hx]
                    · simp only [decodeF, hres, hres2, if_pos hu8]
                      exact u8FastDecode bs rest (u8aOrHex_small v bs hsv hx)
                | none =>
                  rw [hx] at henc
                  simp only at henc
                  cases hlen : decodeUInt 32 (getProp v "length") with
                  | error e => rw [hlen] at henc; cases henc
                  | ok len =>
                    rw [hlen] at henc
                    simp only at henc
                    cases hloop : encIdxLoop (fun a b => encodeF fuel r a b) tid2 v 0 len with
                    | none => rw [hloop] at henc; cases henc
                    | some res3 =>
                      rw [hloop] at henc
                      cases res3 with
                      | error e => simp only at henc; cases henc
                      | ok bs =>
                        simp only at henc
                        cases henc
                        have hu8t : t2 = .primitive .u8 := Ty.isU8_eq t2 hu8
                        have hget : Registry.get_type_fuel fuel r tid2 = none ∨
                            Registry.get_type_fuel fuel r tid2 = some (.ok (.primitive .u8)) := by
                          apply get_fuel_lower
                          rw [← resolve_false_eq_get, hres2, hu8t]
                        obtain ⟨hcb, hblen⟩ := encIdxLoopU8_rt fuel r tid2 v hget len 0 bs hloop
                        obtain ⟨-, hlen32⟩ := decodeUInt_ok 32 (getProp v "length") len hlen
                        refine ⟨.bytes bs, ?_, ?_⟩
                        · simp only [canonF, hres, hres2, if_pos hu8, hx, hlen, hcb]
                        · simp only [decodeF, hres, hres2, if_pos hu8]
                          rw [List.append_assoc,
                            compactDec_compactEnc 32 len (bs ++ rest) (by norm_num) hlen32]
                          simp only
                          rw [if_pos (by simp [hblen])]
                          rw [← hblen, List.take_left, List.drop_left]
              · rw [if_neg hu8] at henc
                simp only at henc
                cases hlen : decodeUInt 32 (getProp v "length") with
                | error e => rw [hlen] at henc; cases henc
                | ok len =>
                  rw [hlen] at henc
                  simp only at henc
                  cases hloop : encIdxLoop (fun a b => encodeF fuel r a b) tid2 v 0 len with
                  | none => rw [hloop] at henc; cases henc
                  | some res3 =>
                    rw [hloop] at henc
                    cases res3 with
                    | error e => simp only at henc; cases henc
                    | ok bs =>
                      simp only at henc
                      cases henc
                      obtain ⟨-, hlen32⟩ := decodeUInt_ok 32 (getProp v "length") len hlen
                      obtain ⟨cs, hcans, hdecs⟩ :=
                        encIdxLoop_rt fuel r tid2 v ih hsv hf2 len 0 bs rest hloop
                      refine ⟨.arr cs, ?_, ?_⟩
                      · simp only [canonF, hres, hres2, if_neg hu8, hlen, hcans]
                      · simp only [decodeF, hres, hres2, if_neg hu8]
                        rw [List.append_assoc,
                          compactDec_compactEnc 32 len (bs ++ rest) (by norm_num) hlen32]
                        simp only [hdecs]
        -- tuple
        case tuple ids =>
          simp only at henc
          have hfl : ∀ id ∈ ids, faithReachF fuel r id = true := by
            intro id hid
            simp only [faithTyF] at hft
            exact List.all_eq_true.mp hft id hid
          obtain ⟨cs, hcans, hdecs⟩ :=
            encTupleLoop_rt fuel r v ih hsv ids 0 out rest hfl henc
          refine ⟨.arr cs, ?_, ?_⟩
          · simp only [canonF, hres, hcans]
          · simp only [decodeF, hres, hdecs]
        -- array
        case array tid2 len =>
          simp only at henc
          cases hres2 : Registry.resolve_type_fuel (fuel + 1) r tid2 false with
          | none => rw [hres2] at henc; cases henc
          | some res2 =>
            rw [hres2] at henc
            cases res2 with
            | error e => simp only at henc; cases henc
            | ok t2 =>
              simp only at henc
              have hf2 : faithReachF fuel r tid2 = true := by
                simpa only [faithTyF] using hft
              by_cases hu8 : t2.isU8 = true
              · rw [if_pos hu8] at henc
                cases hx : u8aOrHex v with
                | some resx =>
                  rw [hx] at henc
                  cases resx with
                  | error e => simp only at henc; cases henc
                  | ok bs =>
                    simp only at henc
                    by_cases hbl : bs.length = len
                    · rw [if_pos hbl] at henc
                      cases henc
                      refine ⟨.bytes out, ?_, ?_⟩
                      · simp only [canonF, hres, hres2, if_pos hu8, hx, if_pos hbl]
                      · simp only [decodeF, hres, hres2, if_pos hu8]
                        exact u8ArrFastDecode out rest len hbl
                    · rw [if_neg hbl] at henc
                      cases henc
                | none =>
                  rw [hx] at henc
                  simp only at henc
                  cases hlenv : lengthOf v with
                  | error e => rw [hlenv] at henc; cases henc
                  | ok alen =>
                    rw [hlenv] at henc
                    simp only at henc
                    by_cases hal : alen = len
                    · rw [if_pos hal] at henc
                      have hu8t : t2 = .primitive .u8 := Ty.isU8_eq t2 hu8
                      have hget : Registry.get_type_fuel fuel r tid2 = none ∨
                          Registry.get_type_fuel fuel r tid2 = some (.ok (.primitive .u8)) := by
                        apply get_fuel_lower
                        rw [← resolve_false_eq_get, hres2, hu8t]
                      obtain ⟨hcb, hblen⟩ := encIdxLoopU8_rt fuel r tid2 v hget len 0 out henc
                      refine ⟨.bytes out, ?_, ?_⟩
                      · simp only [canonF, hres, hres2, if_pos hu8, hx, hlenv,
                          if_pos hal, hcb]
                      · simp only [decodeF, hres, hres2, if_pos hu8]
                        exact u8ArrFastDecode out rest len hblen
                    · rw [if_neg hal] at henc
                      cases henc
              · rw [if_neg hu8] at henc
                simp only at henc
                cases hlenv : lengthOf v with
                | error e => rw [hlenv] at henc; cases henc
                | ok alen =>
                  rw [hlenv] at henc
                  simp only at henc
                  by_cases hal : alen = len
                  · rw [if_pos hal] at henc
                    obtain ⟨cs, hcans, hdecs⟩ :=
                      encIdxLoop_rt fuel r tid2 v ih hsv hf2 len 0 out rest henc
                    refine ⟨.arr cs, ?_, ?_⟩
                    · simp only [canonF, hres, hres2, if_neg hu8, hlenv, if_pos hal, hcans]
                    · simp only [decodeF, hres, hres2, if_neg hu8, hdecs]
                  · rw [if_neg hal] at henc
                    cases henc
        -- enum
        case enum vs =>
          simp only at henc
          cases hent : entriesOf v with
          | error e => rw [hent] at henc; cases henc
          | ok entries =>
            rw [hent] at henc
            simp only at henc
            have hvobj : v = .obj entries := by
              cases v <;> simp only [entriesOf] at hent <;> try cases hent
              rfl
            simp only [faithTyF, Bool.and_eq_true] at hft
            obtain ⟨hfe, hfall⟩ := hft
            have hfp : ∀ variant ∈ vs, ∀ id, variant.2.1 = some id →
                faithReachF fuel r id = true := by
              intro variant hmem id hid
              have := List.all_eq_true.mp hfall variant hmem
              rw [hid] at this
              exact this
            have hsmalls : ∀ kv ∈ entries, smallVal kv.2 = true := by
              intro kv hkv
              rw [hvobj] at hsv
              exact smallValFields_mem entries (by simpa [smallVal] using hsv) kv hkv
            obtain ⟨d, name, tyOpt, payload, c, hout, hbi, hcan, hrest⟩ :=
              encEnumLoop_rt fuel r vs ih hfe hfp entries out rest hsmalls henc
            subst hout
            refine ⟨c, ?_, ?_⟩
            · simp only [canonF, hres, hent, hcan]
            · simp only [decodeF, hres, List.cons_append]
              cases hrest with
              | inl hl =>
                obtain ⟨hty, hpl, hc⟩ := hl
                subst hty; subst hpl; subst hc
                simp only [hbi, List.nil_append]
              | inr hr =>
                obtain ⟨ty, pc, hty, hc, hdec⟩ := hr
                subst hty; subst hc
                simp only [hbi, hdec]
        -- struct
        case struct fields =>
          simp only at henc
          have hfl : ∀ f ∈ fields, faithReachF fuel r f.2 = true := by
            intro f hf
            simp only [faithTyF] at hft
            exact List.all_eq_true.mp hft f hf
          obtain ⟨fs, hcans, hdecs⟩ :=
            encStructLoop_rt fuel r v ih hsv fields [] out rest hfl henc
          refine ⟨.obj fs, ?_, ?_⟩
          · simp only [canonF, hres, hcans]
          · simp only [decodeF, hres, hdecs]
        -- alias
        case «alias» i => simp only at henc; cases henc

theorem decIdxLoop_ext (fuel : Nat) (r : Registry) (tid : Id) (ih : DecExt fuel) :
    ∀ (count : Nat) (buf extra : List Nat) (vs : List JsValue) (rem : List Nat),
    decIdxLoop (fun a b => decodeF fuel r a b) tid count buf = some (.ok (vs, rem)) →
    decIdxLoop (fun a b => decodeF fuel r a b) tid count (buf ++ extra) =
      some (.ok (vs, rem ++ extra)) := by
  intro count
  induction count with
  | zero =>
    intro buf extra vs rem h
    simp only [decIdxLoop] at h ⊢
    cases h
    rfl
  | succ count ihc =>
    intro buf extra vs rem h
    simp only [decIdxLoop] at h ⊢
    cases hd : decodeF fuel r tid buf with
    | none => rw [hd] at h; cases h
    | some res =>
      rw [hd] at h
      cases res with
      | error e => cases h
      | ok p =>
        obtain ⟨v1, buf'⟩ := p
        simp only at h
        cases hrest : decIdxLoop (fun a b => decodeF fuel r a b) tid count buf' with
        | none => rw [hrest] at h; cases h
        | some res2 =>
          rw [hrest] at h
          cases res2 with
          | error e => cases h
          | ok p2 =>
            obtain ⟨vs2, rem2⟩ := p2
            simp only at h
            cases h
            rw [ih r tid buf extra v1 buf' hd]
            simp only
            rw [ihc buf' extra vs2 rem hrest]

theorem decTupleLoop_ext (fuel : Nat) (r : Registry) (ih : DecExt fuel) :
    ∀ (ids : List Id) (buf extra : List Nat) (vs : List JsValue) (rem : List Nat),
    decTupleLoop (fun a b => decodeF fuel r a b) ids buf = some (.ok (vs, rem)) →
    decTupleLoop (fun a b => decodeF fuel r a b) ids (buf ++ extra) =
      some (.ok (vs, rem ++ extra)) := by
  intro ids
  induction ids with
  | nil =>
    intro buf extra vs rem h
    simp only [decTupleLoop] at h ⊢
    cases h
    rfl
  | cons tid tids ihc =>
    intro buf extra vs rem h
    simp only [decTupleLoop] at h ⊢
    cases hd : decodeF fuel r tid buf with
    | none => rw [hd] at h; cases h
    | some res =>
      rw [hd] at h
      cases res with
      | error e => cases h
      | ok p =>
        obtain ⟨v1, buf'⟩ := p
        simp only at h
        cases hrest : decTupleLoop (fun a b => decodeF fuel r a b) tids buf' with
        | none => rw [hrest] at h; cases h
        | some res2 =>
          rw [hrest] at h
          cases res2 with
          | error e => cases h
          | ok p2 =>
            obtain ⟨vs2, rem2⟩ := p2
            simp only at h
            cases h
            rw [ih r tid buf extra v1 buf' hd]
            simp only
            rw [ihc buf' extra vs2 rem hrest]

theorem decStructLoop_ext (fuel : Nat) (r : Registry) (ih : DecExt fuel) :
    ∀ (fields : List (String × Id)) (buf extra : List Nat)
      (acc fs : List (String × JsValue)) (rem : List Nat),
    decStructLoop (fun a b => decodeF fuel r a b) fields buf acc = some (.ok (fs, rem)) →
    decStructLoop (fun a b => decodeF fuel r a b) fields (buf ++ extra) acc =
      some (.ok (fs, rem ++ extra)) := by
  intro fields
  induction fields with
  | nil =>
    intro buf extra acc fs rem h
    simp only [decStructLoop] at h ⊢
    cases h
    rfl
  | cons fld flds ihc =>
    intro buf extra acc fs rem h
    obtain ⟨name, tid⟩ := fld
    simp only [decStructLoop] at h ⊢
    cases hd : decodeF fuel r tid buf with
    | none => rw [hd] at h; cases h
    | some res =>
      rw [hd] at h
      cases res with
      | error e => cases h
      | ok p =>
        obtain ⟨v1, buf'⟩ := p
        simp only at h
        rw [ih r tid buf extra v1 buf' hd]
        simp only
        exact ihc buf' extra (objSet acc name v1) fs rem h

theorem decExt_all : ∀ fuel, DecExt fuel := by
  intro fuel
  induction fuel with
  | zero =>
    intro r tid buf extra v rem h
    simp [decodeF] at h
  | succ fuel ih =>
    intro r tid buf extra v rem h
    simp only [decodeF] at h
    cases hres : Registry.resolve_type_fuel (fuel + 1) r tid true with
    | none => rw [hres] at h; cases h
    | some res =>
      rw [hres] at h
      cases res with
      | error e => cases h
      | ok t =>
        cases t
        case primitive p =>
          simp only at h
          cases hd : decodePrimitive p buf with
          | error e => rw [hd] at h; cases h
          | ok p2 =>
            obtain ⟨v1, buf'⟩ := p2
            rw [hd] at h
            simp only at h
            cases h
            simp only [decodeF, hres, decodePrim_extend p buf extra v rem hd]
        case compact tid2 =>
          simp only at h
          cases hres2 : Registry.resolve_type_fuel (fuel + 1) r tid2 false with
          | none => rw [hres2] at h; cases h
          | some res2 =>
            rw [hres2] at h
            cases res2 with
            | error e => simp only at h; cases h
            | ok t2 =>
              cases t2
              case primitive p =>
                simp only at h
                cases hd : decodeCompactPrim p buf with
                | error e => rw [hd] at h; cases h
                | ok p2 =>
                  obtain ⟨v1, buf'⟩ := p2
                  rw [hd] at h
                  simp only at h
                  cases h
                  simp only [decodeF, hres, hres2,
                    decodeCompactPrim_extend p buf extra v rem hd]
              case compact i => simp only at h; cases h
              case seq i => simp only at h; cases h
              case tuple ids =>
                cases ids with
                | nil =>
                  simp only at h
                  cases h
                  simp only [decodeF, hres, hres2]
                | cons i is => simp only at h; cases h
              case array i l => simp only at h; cases h
              case enum vs => simp only at h; cases h
              case struct fs => simp only at h; cases h
              case «alias» i => simp only at h; cases h
        case seq tid2 =>
          simp only at h
          cases hres2 : Registry.resolve_type_fuel (fuel + 1) r tid2 false with
          | none => rw [hres2] at h; cases h
          | some res2 =>
            rw [hres2] at h
            cases res2 with
            | error e => simp only at h; cases h
            | ok t2 =>
              simp only at h
              by_cases hu8 : t2.isU8 = true
              · rw [if_pos hu8] at h
                cases hcd : compactDec 32 buf with
                | none => rw [hcd] at h; cases h
                | some p2 =>
                  obtain ⟨len, r1⟩ := p2
                  rw [hcd] at h
                  simp only at h
                  split at h
                  · cases h
                    rename_i hle
                    simp only [decodeF, hres, hres2, if_pos hu8,
                      compactDec_extend 32 buf extra len r1 hcd]
                    rw [if_pos (by simp; omega)]
                    rw [List.take_append_of_le_length hle,
                      List.drop_append_of_le_length hle]
                  · cases h
              · rw [if_neg hu8] at h
                cases hcd : compactDec 32 buf with
                | none => rw [hcd] at h; cases h
                | some p2 =>
                  obtain ⟨len, r1⟩ := p2
                  rw [hcd] at h
                  simp only at h
                  cases hloop : decIdxLoop (fun a b => decodeF fuel r a b) tid2 len r1 with
                  | none => rw [hloop] at h; cases h
                  | some res3 =>
                    rw [hloop] at h
                    cases res3 with
                    | error e => cases h
                    | ok p3 =>
                      obtain ⟨xs, buf'⟩ := p3
                      simp only at h
                      cases h
                      simp only [decodeF, hres, hres2, if_neg hu8,
                        compactDec_extend 32 buf extra len r1 hcd,
                        decIdxLoop_ext fuel r tid2 ih len r1 extra xs rem hloop]
        case tuple ids =>
          simp only at h
          cases hloop : decTupleLoop (fun a b => decodeF fuel r a b) ids buf with
          | none => rw [hloop] at h; cases h
          | some res3 =>
            rw [hloop] at h
            cases res3 with
            | error e => cases h
            | ok p3 =>
              obtain ⟨xs, buf'⟩ := p3
              simp only at h
              cases h
              simp only [decodeF, hres,
                decTupleLoop_ext fuel r ih ids buf extra xs rem hloop]
        case array tid2 len =>
          simp only at h
          cases hres2 : Registry.resolve_type_fuel (fuel + 1) r tid2 false with
          | none => rw [hres2] at h; cases h
          | some res2 =>
            rw [hres2] at h
            cases res2 with
            | error e => simp only at h; cases h
            | ok t2 =>
              simp only at h
              by_cases hu8 : t2.isU8 = true
              · rw [if_pos hu8] at h
                split at h
                · cases h
                  rename_i hle
                  simp only [decodeF, hres, hres2, if_pos hu8]
                  rw [if_pos (by simp; omega)]
                  rw [List.take_append_of_le_length hle,
                    List.drop_append_of_le_length hle]
                · cases h
              · rw [if_neg hu8] at h
                cases hloop : decIdxLoop (fun a b => decodeF fuel r a b) tid2 len buf with
                | none => rw [hloop] at h; cases h
                | some res3 =>
                  rw [hloop] at h
                  cases res3 with
                  | error e => cases h
                  | ok p3 =>
                    obtain ⟨xs, buf'⟩ := p3
                    simp only at h
                    cases h
                    simp only [decodeF, hres, hres2, if_neg hu8,
                      decIdxLoop_ext fuel r tid2 ih len buf extra xs rem hloop]
        case enum vs =>
          simp only at h
          cases buf with
          | nil => simp only at h; cases h
          | cons tag buf' =>
            simp only at h
            cases hbi : getVariantByIndex vs tag with
            | error e => rw [hbi] at h; cases h
            | ok p2 =>
              obtain ⟨name, tyOpt⟩ := p2
              rw [hbi] at h
              cases tyOpt with
              | none =>
                simp only at h
                cases h
                simp only [decodeF, hres, List.cons_append, hbi]
              | some ty =>
                simp only at h
                cases hd : decodeF fuel r ty buf' with
                | none => rw [hd] at h; cases h
                | some res3 =>
                  rw [hd] at h
                  cases res3 with
                  | error e => cases h
                  | ok p3 =>
                    obtain ⟨pv, buf''⟩ := p3
                    simp only at h
                    cases h
                    simp only [decodeF, hres, List.cons_append, hbi,
                      ih r ty buf' extra pv rem hd]
        case struct fields =>
          simp only at h
          cases hloop : decStructLoop (fun a b => decodeF fuel r a b) fields buf [] with
          | none => rw [hloop] at h; cases h
          | some res3 =>
            rw [hloop] at h
            cases res3 with
            | error e => cases h
            | ok p3 =>
              obtain ⟨fs, buf'⟩ := p3
              simp only at h
              cases h
              simp only [decodeF, hres,
                decStructLoop_ext fuel r ih fields buf extra [] fs rem hloop]
        case «alias» i => simp only at h; cases h

/-! ## Claim theorems -/

/-- C2: the spec demands that cyclic alias chains fail with a resolution
error; the `while let` loop of `Registry::get_type` (mod.rs:254) has no
bound or visited set, so on the registry `A=B;B=A` it never returns: for
every iteration budget the model still has no result, for `get_type`,
for `resolve_type`, and for an encode that resolves `A`. -/
theorem c2_alias_cycle_diverges :
    (∀ n, Registry.get_type_fuel n rCyc (Id.ofName "A") = none) ∧
    (∀ n, Registry.resolve_type_fuel n rCyc (Id.ofName "A") true = none) ∧
    (∀ n v, encodeF n rCyc (Id.ofName "A") v = none) := by
  have key : ∀ n, Registry.get_type_fuel n rCyc (Id.ofName "A") = none ∧
      Registry.get_type_fuel n rCyc (Id.ofName "B") = none := by
    intro n
    induction n with
    | zero => exact ⟨rfl, rfl⟩
    | succ n ih => exact ⟨ih.2, ih.1⟩
  have hres : ∀ n, Registry.resolve_type_fuel n rCyc (Id.ofName "A") true = none := by
    intro n
    simp only [Registry.resolve_type_fuel, (key n).1]
  refine ⟨fun n => (key n).1, hres, ?_⟩
  intro n v
  match n with
  | 0 => rfl
  | n + 1 =>
    simp only [encodeF, hres (n + 1)]

/-- C1: the unamended round trip is false — on the enum `<A,B::0>`,
variant `B`'s explicit discriminant `0` steals variant `A`'s positional
tag, so encoding `\x7bB: null\x7d` and decoding the byte back yields
`\x7bA: null\x7d`, a different value. -/
theorem c1_roundtrip_counterexample :
    encodeF 2 Registry.empty tidBadEnum (.obj [("B", .null)]) = some (.ok [0]) ∧
    jsDecode 2 Registry.empty tidBadEnum [0] = some (.ok (.obj [("A", .null)])) ∧
    (JsValue.obj [("A", .null)] ≠ .obj [("B", .null)]) :=
  ⟨rfl, rfl, by simp⟩

/-- C1 (amended): for every registry, type reference and
capability-constructible value whose byte-buffer and string lengths fit the
`u32` length prefix, and whose reachable enums are tag-faithful (each
variant's effective discriminant resolves back to that variant under the
index-then-scan rule), a successful encode round-trips: the decoder reads
the encoded bytes back to the value's canonical form under the type's
equality (byte buffers by content, primitives by value, aggregates
structurally), both as a cursor decode and as the host-level decode that
ignores trailing bytes. -/
theorem c1_roundtrip_amended (fuel : Nat) (r : Registry) (tid : Id) (v : JsValue)
    (out rest : List Nat) (hsmall : smallVal v = true)
    (hfaith : faithReachF fuel r tid = true)
    (henc : encodeF fuel r tid v = some (.ok out)) :
    ∃ c, canonF fuel r tid v = some (.ok c) ∧
      decodeF fuel r tid (out ++ rest) = some (.ok (c, rest)) ∧
      jsDecode fuel r tid (out ++ rest) = some (.ok c) := by
  obtain ⟨c, hc, hd⟩ := encOk_all fuel r tid v out rest hsmall hfaith henc
  exact ⟨c, hc, hd, by simp [jsDecode, hd]⟩

/-- C1 witness: the struct `\x7bx:u8,s:str\x7d` at the value
`\x7bx: 5, s: "hi"\x7d` encodes to `[5, 8, 104, 105]` and decodes back with
two trailing bytes left over. -/
theorem c1_roundtrip_witness :
    ∃ c, canonF 3 Registry.empty tidXS (.obj [("x", .num 5), ("s", .str [104, 105])]) =
        some (.ok c) ∧
      decodeF 3 Registry.empty tidXS ([5, 8, 104, 105] ++ [9, 9]) =
        some (.ok (c, [9, 9])) ∧
      jsDecode 3 Registry.empty tidXS ([5, 8, 104, 105] ++ [9, 9]) = some (.ok c) :=
  c1_roundtrip_amended 3 Registry.empty tidXS
    (.obj [("x", .num 5), ("s", .str [104, 105])])
    [5, 8, 104, 105] [9, 9] (by rfl) (by rfl) (by rfl)

/-- C3: enum discriminant resolution follows the index-then-scan rule.  On
`<A,B:u32,C::5>`, encoding `\x7bB: 7\x7d` produces discriminant byte `1`
followed by the 4-byte little-endian encoding of `7`, and decoding byte `5`
(no positional match) falls back to the linear scan and yields
`\x7bC: null\x7d`.  In general a variant found by name carries its explicit
discriminant when declared, else its zero-based declaration index; and
byte-tag lookup takes the position-matching entry when its explicit
discriminant is absent or equal to the tag, else falls back to the linear
scan over explicit discriminants (first match, skipping implicit
entries). -/
theorem c3_enum_discriminant :
    encodeF 2 rChoice (Id.ofName "Choice") (.obj [("B", .num 7)]) =
      some (.ok [1, 7, 0, 0, 0]) ∧
    jsDecode 2 rChoice (Id.ofName "Choice") [5] = some (.ok (.obj [("C", .null)])) ∧
    (∀ (vs : List (String × Option Id × Option Nat)) (name vn : String)
        (ty : Option Id) (d : Nat),
      getVariantByName vs name = .ok (vn, ty, d) →
      vn = name ∧ ∃ (k : Nat) (e : Option Nat),
        vs[k]? = some (vn, ty, e) ∧ d = e.getD k) ∧
    (∀ (vs : List (String × Option Id × Option Nat)) (tag : Nat) (n : String)
        (ty : Option Id),
      vs[tag]? = some (n, ty, none) → getVariantByIndex vs tag = .ok (n, ty)) ∧
    (∀ (vs : List (String × Option Id × Option Nat)) (tag : Nat) (n : String)
        (ty : Option Id),
      vs[tag]? = some (n, ty, some tag) → getVariantByIndex vs tag = .ok (n, ty)) ∧
    (∀ (vs : List (String × Option Id × Option Nat)) (tag d : Nat) (n : String)
        (ty : Option Id),
      vs[tag]? = some (n, ty, some d) → tag ≠ d →
      getVariantByIndex vs tag = scanExplicit tag vs) ∧
    (∀ (vs : List (String × Option Id × Option Nat)) (tag : Nat),
      vs[tag]? = none → getVariantByIndex vs tag = scanExplicit tag vs) ∧
    (∀ (vs : List (String × Option Id × Option Nat)) (tag : Nat) (n : String)
        (ty : Option Id) (d : Nat),
      scanExplicit tag ((n, ty, some d) :: vs) =
        if tag = d then .ok (n, ty) else scanExplicit tag vs) ∧
    (∀ (vs : List (String × Option Id × Option Nat)) (tag : Nat) (n : String)
        (ty : Option Id),
      scanExplicit tag ((n, ty, none) :: vs) = scanExplicit tag vs) := by
  refine ⟨rfl, rfl, ?_, ?_, ?_, ?_, ?_, ?_, ?_⟩
  · intro vs name vn ty d h
    obtain ⟨hvn, k, e, hk, hd⟩ := variantByNameFrom_spec name vs 0 vn ty d h
    exact ⟨hvn, k, e, hk, by simpa using hd⟩
  · intro vs tag n ty h
    simp [getVariantByIndex, h]
  · intro vs tag n ty h
    simp [getVariantByIndex, h]
  · intro vs tag d n ty h hne
    simp [getVariantByIndex, h, hne]
  · intro vs tag h
    simp [getVariantByIndex, h]
  · intro vs tag n ty d
    rfl
  · intro vs tag n ty
    rfl

/-- C3 witness: on `<A,B:u32,C::5>`, looking up variant `C` by name yields
its explicit discriminant `5` at declaration index `2`. -/
theorem c3_enum_discriminant_witness :
    "C" = "C" ∧ ∃ (k : Nat) (e : Option Nat),
      [("A", (none : Option Id), (none : Option Nat)),
       ("B", some (Id.ofName "u32"), none),
       ("C", none, some 5)][k]? = some ("C", (none : Option Id), e) ∧
      5 = e.getD k :=
  c3_enum_discriminant.2.2.1
    [("A", none, none), ("B", some (Id.ofName "u32"), none), ("C", none, some 5)]
    "C" "C" none 5 (by rfl)

/-- C4: the byte fast path.  A 32-byte buffer encoded against `[u8;32]`
emits exactly those 32 bytes with no length prefix; against `[u8]` it emits
the compact encoding of the length `32` followed by the 32 bytes; a buffer
whose length differs from the fixed array length fails with the
length-mismatch error. -/
theorem c4_byte_fast_path :
    (∀ bs : List Nat, bs.length = 32 →
      encodeF 2 Registry.empty tidArr32 (.bytes bs) = some (.ok bs)) ∧
    (∀ bs : List Nat, bs.length = 32 →
      encodeF 2 Registry.empty tidSeq8 (.bytes bs) =
        some (.ok (compactEnc 32 ++ bs))) ∧
    (∀ bs : List Nat, bs.length ≠ 32 →
      encodeF 2 Registry.empty tidArr32 (.bytes bs) =
        some (.error ("Expected array of length 32, got " ++ toString bs.length))) := by
  have harr : ∀ bs : List Nat, encodeF 2 Registry.empty tidArr32 (.bytes bs) =
      if bs.length = 32 then some (.ok bs)
      else some (.error ("Expected array of length 32, got " ++ toString bs.length)) :=
    fun bs => rfl
  have hseq : ∀ bs : List Nat, encodeF 2 Registry.empty tidSeq8 (.bytes bs) =
      some (.ok (sliceEnc bs)) := fun bs => rfl
  refine ⟨?_, ?_, ?_⟩
  · intro bs h
    rw [harr bs, if_pos h]
  · intro bs h
    rw [hseq bs, sliceEnc, h]
  · intro bs h
    rw [harr bs, if_neg h]

/-- C4 witness: 32 sevens against `[u8;32]` encode to themselves, and
against `[u8]` to a one-byte compact length `32` (`0x80`) followed by the
bytes. -/
theorem c4_byte_fast_path_witness :
    encodeF 2 Registry.empty tidArr32 (.bytes (List.replicate 32 7)) =
      some (.ok (List.replicate 32 7)) ∧
    encodeF 2 Registry.empty tidSeq8 (.bytes (List.replicate 32 7)) =
      some (.ok (compactEnc 32 ++ List.replicate 32 7)) :=
  ⟨c4_byte_fast_path.1 (List.replicate 32 7) (by rfl),
   c4_byte_fast_path.2.1 (List.replicate 32 7) (by rfl)⟩

/-- C5 counterexample: `i32` is a primitive integer type, yet `@i32` does
not compact-encode — every value, numbers included, is rejected with the
"A number or () for compact" type error, and decode mirrors it. -/
theorem c5_compact_signed_counterexample :
    encodeF 2 Registry.empty tidCi32 (.num 1) = some (.error compactableMsg) ∧
    jsDecode 2 Registry.empty tidCi32 [4] = some (.error compactableMsg) :=
  ⟨rfl, rfl⟩

/-- C5 (amended): `Compact` of an unsigned primitive integer type encodes
with the variable-length compact-integer encoding and decodes back;
`Compact` of the empty tuple encodes as the empty byte string and decodes
to the empty tuple value without consuming input; `Compact` of any other
resolved shape — the signed primitive integers included — is the
"A number or () for compact" type error on both encode and decode. -/
theorem c5_compact_amended :
    (∀ (v : JsValue) (m : Nat), decodeUInt 32 v = .ok m →
      encodeF 2 Registry.empty tidCu32 v = some (.ok (compactEnc m))) ∧
    (∀ v, encodeF 2 Registry.empty tidCunit v = some (.ok [])) ∧
    (∀ v, encodeF 2 Registry.empty tidCi32 v = some (.error compactableMsg)) ∧
    (∀ v, encodeF 2 Registry.empty tidCstr v = some (.error compactableMsg)) ∧
    (∀ (n : Nat) (rest : List Nat), n < 2 ^ 32 →
      decodeF 2 Registry.empty tidCu32 (compactEnc n ++ rest) =
        some (.ok (.num n, rest))) ∧
    (∀ buf, jsDecode 2 Registry.empty tidCi32 buf = some (.error compactableMsg)) ∧
    (∀ buf, decodeF 2 Registry.empty tidCunit buf = some (.ok (.arr [], buf))) := by
  have hencU : ∀ v, encodeF 2 Registry.empty tidCu32 v =
      (match encodeCompactPrim v .u32 with
       | .ok bs => some (.ok bs)
       | .error e => some (.error e)) := fun v => rfl
  have hdecU : ∀ buf, decodeF 2 Registry.empty tidCu32 buf =
      (match decodeCompactPrim .u32 buf with
       | .ok (v, b) => some (.ok (v, b))
       | .error e => some (.error e)) := fun buf => rfl
  refine ⟨?_, fun v => rfl, fun v => rfl, fun v => rfl, ?_, fun buf => rfl,
    fun buf => rfl⟩
  · intro v m h
    rw [hencU]
    simp only [encodeCompactPrim, h, Except.map]
  · intro n rest h
    have hd := compactDec_compactEnc 32 n rest ⟨4, rfl⟩ h
    rw [hdecU]
    simp [decodeCompactPrim, hd]

/-- C5 witness: `300` compact-encodes against `@u32` (two-byte mode:
`[0xb1, 0x04]`) and decodes back with the remainder untouched. -/
theorem c5_compact_witness :
    encodeF 2 Registry.empty tidCu32 (.num ((300 : Nat) : Int)) =
      some (.ok (compactEnc 300)) ∧
    decodeF 2 Registry.empty tidCu32 (compactEnc 300 ++ [7]) =
      some (.ok (.num ((300 : Nat) : Int), [7])) :=
  ⟨c5_compact_amended.1 (.num ((300 : Nat) : Int)) 300 (by rfl),
   c5_compact_amended.2.2.2.2.1 300 [7] (by decide)⟩

/-- C6: generic instantiation.  `Pair<T>=\x7ba:T,b:T\x7d` referenced as
`Pair<u8>` resolves to `\x7ba:u8,b:u8\x7d`; a parameter occurring under
`Seq`, `Tuple`, `Array`, an `Enum` payload, a `Struct` field or a plain id
is substituted recursively; and for every registry, reference and
definition, `resolve_generic` fails with the parameter-count error whenever
the supplied argument count differs from the declared parameter count
(shown concretely by `Pair` referenced with no arguments). -/
theorem c6_generic_instantiation :
    Registry.get_type_fuel 2 rPair (.mk (.name "Pair") [Id.ofName "u8"]) =
      some (.ok (.struct [("a", Id.ofName "u8"), ("b", Id.ofName "u8")])) ∧
    Registry.get_type_fuel 2 rNest (.mk (.name "Nest") [Id.ofName "u8"]) =
      some (.ok (.struct
        [("s", .mk (.type (.seq (Id.ofName "u8"))) []),
         ("t", .mk (.type (.tuple [Id.ofName "u8"])) []),
         ("e", .mk (.type (.enum [("V", some (Id.ofName "u8"), none)])) []),
         ("a", .mk (.type (.array (Id.ofName "u8") 3)) []),
         ("p", Id.ofName "u8")])) ∧
    Registry.get_type_fuel 2 rPair (Id.ofName "Pair") =
      some (.error "Type Pair expected 1 type parameters, got 0") ∧
    (∀ (r : Registry) (tid : Id) (d : TypeDef),
      d.name.type_params.length ≠ tid.type_args.length →
      Registry.resolve_generic r tid d =
        .error ("Type " ++ d.name.display ++ " expected "
          ++ toString d.name.type_params.length ++ " type parameters, got "
          ++ toString tid.type_args.length)) := by
  refine ⟨rfl, rfl, rfl, ?_⟩
  intro r tid d h
  unfold Registry.resolve_generic
  rw [if_pos h]

/-- C6 witness: the `Pair` definition referenced with zero type arguments
is rejected with the parameter-count error. -/
theorem c6_generic_instantiation_witness :
    Registry.resolve_generic rPair (Id.ofName "Pair")
      ⟨⟨some "Pair", ["T"]⟩, .struct [("a", Id.ofName "T"), ("b", Id.ofName "T")]⟩ =
      .error "Type Pair expected 1 type parameters, got 0" :=
  c6_generic_instantiation.2.2.2 rPair (Id.ofName "Pair")
    ⟨⟨some "Pair", ["T"]⟩, .struct [("a", Id.ofName "T"), ("b", Id.ofName "T")]⟩
    (by decide)

/-- C7: literal-type fallback in resolution.  When `get_type` fails on a
`Name` reference and fallback is enabled, the name text is re-parsed as an
inline type expression and used as the result; an `Alias` produced this way
is resolved exactly one further level by `get_type` with fallback disabled;
with fallback disabled the original lookup error is returned unchanged.
Concretely, the unregistered name `[u8]` resolves to `Seq(u8)` with
fallback on and errors with fallback off. -/
theorem c7_literal_fallback :
    (∀ (fuel : Nat) (r : Registry) (tid : Id) (lit e : String) (t : Ty),
      tid.info = .name lit →
      Registry.get_type_fuel fuel r tid = some (.error e) →
      parseType lit = .ok t →
      ¬ t.is_alias = true →
      Registry.resolve_type_fuel fuel r tid true = some (.ok t)) ∧
    (∀ (fuel : Nat) (r : Registry) (tid : Id) (lit e : String) (id2 : Id),
      tid.info = .name lit →
      Registry.get_type_fuel fuel r tid = some (.error e) →
      parseType lit = .ok (.alias id2) →
      Registry.resolve_type_fuel fuel r tid true = Registry.get_type_fuel fuel r id2) ∧
    (∀ (fuel : Nat) (r : Registry) (tid : Id) (e : String),
      Registry.get_type_fuel fuel r tid = some (.error e) →
      Registry.resolve_type_fuel fuel r tid false = some (.error e)) ∧
    Registry.resolve_type_fuel 2 Registry.empty (Id.ofName "[u8]") true =
      some (.ok (.seq (Id.ofName "u8"))) ∧
    Registry.resolve_type_fuel 2 Registry.empty (Id.ofName "[u8]") false =
      some (.error "Unknown type [u8]") := by
  refine ⟨?_, ?_, ?_, rfl, rfl⟩
  · intro fuel r tid lit e t hinfo hget hparse halias
    simp only [Registry.resolve_type_fuel, hget, hinfo, hparse]
    cases t <;> first | rfl | exact absurd rfl halias
  · intro fuel r tid lit e id2 hinfo hget hparse
    simp only [Registry.resolve_type_fuel, hget, hinfo, hparse]
    rw [if_pos trivial]
  · intro fuel r tid e hget
    simp only [Registry.resolve_type_fuel, hget, if_neg (by simp : ¬False)]
    simp

/-- C7 witness: at iteration budget `1`, the unregistered name `[u8]`
re-parses to `Seq(u8)` under the fallback. -/
theorem c7_literal_fallback_witness :
    Registry.resolve_type_fuel 1 Registry.empty (Id.ofName "[u8]") true =
      some (.ok (.seq (Id.ofName "u8"))) :=
  c7_literal_fallback.1 1 Registry.empty (Id.ofName "[u8]") "[u8]"
    "Unknown type [u8]" (.seq (Id.ofName "u8")) rfl (by rfl) (by rfl) (by decide)

/-- C8: parse-error aggregation.  Parsing is not fail-fast: the source
`A=<;B=(` holds two independent grammar mismatches and both are collected
and reported together, joined one per line by the error formatter; and in
general a failed parse always carries at least one collected mismatch. -/
theorem c8_parse_error_aggregation :
    parseTypes "A=<;B=(" = .error ["Expected a variant name", "Expected a type"] ∧
    toJsError ["Expected a variant name", "Expected a type"] =
      "Expected a variant name\nExpected a type\n" ∧
    (∀ (src : String) (errs : List String),
      parseTypes src = .error errs → errs ≠ []) := by
  refine ⟨rfl, rfl, ?_⟩
  intro src errs h hnil
  subst hnil
  unfold parseTypes at h
  rcases hl : lex src with ⟨toks, lexErrs⟩
  rw [hl] at h
  simp only at h
  by_cases he : lexErrs.isEmpty
  · rw [if_pos he] at h
    rcases hp : parseStmtList (3 * toks.length + 9) toks [] [] with ⟨errs2, defs⟩
    rw [hp] at h
    cases errs2 with
    | nil => simp only at h; cases h
    | cons e es => simp only [Except.error.injEq] at h; cases h
  · rw [if_neg he] at h
    simp only [Except.error.injEq] at h
    subst h
    simp at he

/-- C8 witness: the collected error list of `A=<;B=(` is nonempty. -/
theorem c8_parse_error_aggregation_witness :
    ["Expected a variant name", "Expected a type"] ≠ ([] : List String) :=
  c8_parse_error_aggregation.2.2 "A=<;B=("
    ["Expected a variant name", "Expected a type"] (by rfl)

/-- C9: a top-level decode does not require the buffer to be fully
consumed.  Whenever a decode succeeds on `buf`, it succeeds on
`buf ++ extra` with the same value — the cursor stops before the trailing
bytes, which reappear verbatim in the unconsumed remainder and are silently
ignored by the host-level `decode`. -/
theorem c9_trailing_bytes_ignored (fuel : Nat) (r : Registry) (tid : Id)
    (buf extra : List Nat) (v : JsValue) (rem : List Nat)
    (h : decodeF fuel r tid buf = some (.ok (v, rem))) :
    decodeF fuel r tid (buf ++ extra) = some (.ok (v, rem ++ extra)) ∧
    jsDecode fuel r tid (buf ++ extra) = some (.ok v) := by
  have h2 := decExt_all fuel r tid buf extra v rem h
  exact ⟨h2, by simp [jsDecode, h2]⟩

/-- C9 witness: the byte `[7]` decodes as `u8` to `7`; with `[1, 2]`
appended the decode still yields `7` and leaves the two extra bytes
unread. -/
theorem c9_trailing_bytes_witness :
    decodeF 1 Registry.empty (Id.ofName "u8") ([7] ++ [1, 2]) =
      some (.ok (.num 7, [] ++ [1, 2])) ∧
    jsDecode 1 Registry.empty (Id.ofName "u8") ([7] ++ [1, 2]) = some (.ok (.num 7)) :=
  c9_trailing_bytes_ignored 1 Registry.empty (Id.ofName "u8") [7] [1, 2]
    (.num 7) [] (by rfl)

/-- C10: enum encoding iterates the value's entries in order; an entry
whose key names no variant is skipped rather than rejected, the first entry
whose key names a variant selects it, and the error listing the variant
names arises only when no entry matched — so a multi-key mapping encodes
successfully.  Concretely on `<A,B:u32,C::5>`: the three-entry value whose
first matching key is `C` encodes to `[5]`, and a value with no matching
key fails listing `A, B, C`. -/
theorem c10_enum_entry_scan :
    encodeF 2 rChoice (Id.ofName "Choice")
      (.obj [("nope", .num 1), ("C", .null), ("A", .null)]) = some (.ok [5]) ∧
    encodeF 2 rChoice (Id.ofName "Choice") (.obj [("x", .num 1)]) =
      some (.error "Enum with any variant of A, B, C") ∧
    (∀ (enc : Id → JsValue → Option (Except String (List Nat)))
        (vs : List (String × Option Id × Option Nat)) (k : String) (pv : JsValue)
        (entries : List (String × JsValue)) (e : String),
      getVariantByName vs k = .error e →
      encEnumLoop enc vs ((k, pv) :: entries) = encEnumLoop enc vs entries) ∧
    (∀ (enc : Id → JsValue → Option (Except String (List Nat)))
        (vs : List (String × Option Id × Option Nat)),
      encEnumLoop enc vs [] = some (.error (enumErrMsg vs))) := by
  refine ⟨rfl, rfl, ?_, fun enc vs => rfl⟩
  intro enc vs k pv entries e h
  simp only [encEnumLoop, h]

/-- C10 witness: on `<A,B:u32,C::5>`, an entry keyed `zz` is skipped — the
loop continues on the remaining entries. -/
theorem c10_enum_entry_scan_witness :
    encEnumLoop (fun _ _ => none)
      [("A", none, none), ("B", some (Id.ofName "u32"), none), ("C", none, some 5)]
      [("zz", .null)] =
    encEnumLoop (fun _ _ => none)
      [("A", none, none), ("B", some (Id.ofName "u32"), none), ("C", none, some 5)]
      [] :=
  c10_enum_entry_scan.2.2.1 (fun _ _ => none)
    [("A", none, none), ("B", some (Id.ofName "u32"), none), ("C", none, some 5)]
    "zz" .null [] "Unknown variant zz" (by rfl)

end Scale2
